import Mathlib

/-!
Verification of the RESP key/value server (codecrafters-redis-rust).

Shallow embedding of the parts of the source the claims concern:
byte-level RESP frame codec (`src/frame.rs`), command parsing and dispatch
(`src/command/mod.rs`, `src/command/xadd.rs`, `src/command/set.rs`),
the keyspace engine with streams and the expiry index (`src/db.rs`),
and the WAIT acknowledgement counter (`src/info.rs`).

Bytes are modelled as `List Nat` (each element a byte value); Rust `String`
values travelling through the codec are modelled as their UTF-8 byte lists,
with UTF-8 validity tracked explicitly where Rust's type system guarantees it.
Panics of the Rust code (`unwrap`, out-of-bounds indexing) are modelled by
`Option`/`Except` with `none` standing for the panic.
-/

namespace Redis

/-- Byte strings: each element is a byte value (0..255). -/
abbrev Bytes := List Nat

/-- UTF-8 bytes of an ASCII Lean string literal (used only on ASCII literals,
where a Char code point equals its single UTF-8 byte). -/
def ascii (s : String) : Bytes :=
  s.data.map Char.toNat

/-- CRLF line terminator. -/
def crlf : Bytes := [13, 10]

/-- Fuelled decimal-digit helper (the fuel strictly dominates the value, so
it never runs out; it only makes the recursion structural). -/
def natDigitsAux (fuel : Nat) (n : Nat) : Bytes :=
  match fuel with
  | 0 => []
  | fuel + 1 =>
      if n < 10 then [48 + n] else natDigitsAux fuel (n / 10) ++ [48 + n % 10]

/-- Decimal digit bytes of a natural number, most significant first.
Models Rust's `Display` for unsigned integers. -/
def natDigits (n : Nat) : Bytes := natDigitsAux (n + 1) n

theorem natDigitsAux_irrel :
    ∀ n fuel fuel2, n < fuel → n < fuel2 →
      natDigitsAux fuel n = natDigitsAux fuel2 n := by
  intro n
  induction n using Nat.strong_induction_on with
  | _ n ih =>
    intro fuel fuel2 h1 h2
    cases fuel with
    | zero => omega
    | succ f =>
      cases fuel2 with
      | zero => omega
      | succ f2 =>
        simp only [natDigitsAux]
        by_cases hn : n < 10
        · simp [hn]
        · have hd : n / 10 < n := Nat.div_lt_self (by omega) (by omega)
          simp only [hn, if_false]
          rw [ih (n / 10) hd f f2 (by omega) (by omega)]

theorem natDigits_unfold (n : Nat) :
    natDigits n = if n < 10 then [48 + n] else natDigits (n / 10) ++ [48 + n % 10] := by
  by_cases hn : n < 10
  · simp [natDigits, natDigitsAux, hn]
  · have hd : n / 10 < n := Nat.div_lt_self (by omega) (by omega)
    rw [if_neg hn]
    show natDigitsAux (n + 1) n = natDigits (n / 10) ++ [48 + n % 10]
    rw [show natDigitsAux (n + 1) n =
      if n < 10 then [48 + n] else natDigitsAux n (n / 10) ++ [48 + n % 10] from rfl]
    rw [if_neg hn, natDigits,
      natDigitsAux_irrel (n / 10) n (n / 10 + 1) hd (by omega)]

/-- Fold a list of decimal digit bytes into a value; `none` if a byte is not
an ASCII digit. Models the digit-accumulation of Rust's integer `parse`. -/
def digitsVal (acc : Nat) : Bytes → Option Nat
  | [] => some acc
  | b :: rest =>
      if 48 ≤ b ∧ b ≤ 57 then digitsVal (acc * 10 + (b - 48)) rest else none

/-- Drop one leading ASCII `+` sign, as Rust's unsigned-integer `parse` allows. -/
def stripPlus : Bytes → Bytes
  | [] => []
  | b :: rest => if b = 43 then rest else b :: rest

/-- Model of Rust `str::parse::<u64>()`: optional leading `+`, at least one
digit, all digits, value below 2^64 (overflow is rejected). -/
def parseU64 (bs : Bytes) : Option Nat :=
  match stripPlus bs with
  | [] => none
  | b :: rest =>
      match digitsVal 0 (b :: rest) with
      | some v => if v < 2 ^ 64 then some v else none
      | none => none

theorem natDigits_ne_nil (n : Nat) : natDigits n ≠ [] := by
  rw [natDigits_unfold]
  split
  · simp
  · simp

theorem natDigits_mem_digit (n : Nat) :
    ∀ b ∈ natDigits n, 48 ≤ b ∧ b ≤ 57 := by
  induction n using Nat.strong_induction_on with
  | _ n ih =>
    intro b hb
    rw [natDigits_unfold] at hb
    split at hb
    · rename_i h
      simp at hb
      omega
    · rename_i h
      rcases List.mem_append.mp hb with h1 | h1
      · exact ih (n / 10) (Nat.div_lt_self (by omega) (by omega)) b h1
      · simp at h1
        omega

theorem digitsVal_append (acc : Nat) (xs ys : Bytes) :
    digitsVal acc (xs ++ ys) =
      match digitsVal acc xs with
      | some v => digitsVal v ys
      | none => none := by
  induction xs generalizing acc with
  | nil => simp [digitsVal]
  | cons b rest ih =>
    simp only [List.cons_append, digitsVal]
    split
    · exact ih _
    · rfl

theorem digitsVal_natDigits (n : Nat) :
    ∀ acc, digitsVal acc (natDigits n) = some (acc * 10 ^ (natDigits n).length + n) := by
  induction n using Nat.strong_induction_on with
  | _ n ih =>
    intro acc
    by_cases h : n < 10
    · rw [natDigits_unfold]
      simp [h, digitsVal, Nat.pow_succ]
      omega
    · rw [natDigits_unfold]
      simp only [h, if_false]
      rw [digitsVal_append, ih (n / 10) (Nat.div_lt_self (by omega) (by omega)) acc]
      have hd : 48 ≤ 48 + n % 10 ∧ 48 + n % 10 ≤ 57 := by omega
      simp only [digitsVal, hd, and_self, if_true, if_pos, List.length_append,
        List.length_cons, List.length_nil, Nat.zero_add]
      rw [Nat.pow_succ, ← Nat.mul_assoc]
      congr 1
      generalize acc * 10 ^ (natDigits (n / 10)).length = A
      omega

theorem parseU64_natDigits (n : Nat) (h : n < 2 ^ 64) :
    parseU64 (natDigits n) = some n := by
  have hne := natDigits_ne_nil n
  have hdig := natDigits_mem_digit n
  have hval := digitsVal_natDigits n 0
  cases hd : natDigits n with
  | nil => exact absurd hd hne
  | cons b rest =>
    rw [hd] at hval hdig
    have hb := hdig b (by simp)
    have hb43 : ¬ b = 43 := by omega
    simp only [Nat.zero_mul, Nat.zero_add] at hval
    simp only [parseU64, stripPlus, hb43, if_false, hval]
    rw [if_pos (by omega)]

/-- A UTF-8 continuation byte (0x80..0xBF). -/
def utf8Cont (b : Nat) : Bool := 128 ≤ b ∧ b ≤ 191

mutual

/-- UTF-8 validity of a byte sequence, as checked by Rust's
`std::str::from_utf8` (overlong encodings and surrogates rejected). -/
def utf8Valid : Bytes → Bool
  | [] => true
  | b :: rest => if b ≤ 127 then utf8Valid rest else utf8ValidMulti b rest

/-- Validity of one multi-byte UTF-8 sequence led by byte `b`, followed by
validity of the remainder. -/
def utf8ValidMulti (b : Nat) (rest : Bytes) : Bool :=
  if 194 ≤ b ∧ b ≤ 223 then
    match rest with
    | c :: rest2 => utf8Cont c && utf8Valid rest2
    | [] => false
  else if b = 224 then
    match rest with
    | c :: d :: rest2 => (160 ≤ c ∧ c ≤ 191 : Bool) && utf8Cont d && utf8Valid rest2
    | _ => false
  else if (225 ≤ b ∧ b ≤ 236) ∨ b = 238 ∨ b = 239 then
    match rest with
    | c :: d :: rest2 => utf8Cont c && utf8Cont d && utf8Valid rest2
    | _ => false
  else if b = 237 then
    match rest with
    | c :: d :: rest2 => (128 ≤ c ∧ c ≤ 159 : Bool) && utf8Cont d && utf8Valid rest2
    | _ => false
  else if b = 240 then
    match rest with
    | c :: d :: e :: rest2 =>
        (144 ≤ c ∧ c ≤ 191 : Bool) && utf8Cont d && utf8Cont e && utf8Valid rest2
    | _ => false
  else if 241 ≤ b ∧ b ≤ 243 then
    match rest with
    | c :: d :: e :: rest2 => utf8Cont c && utf8Cont d && utf8Cont e && utf8Valid rest2
    | _ => false
  else if b = 244 then
    match rest with
    | c :: d :: e :: rest2 =>
        (128 ≤ c ∧ c ≤ 143 : Bool) && utf8Cont d && utf8Cont e && utf8Valid rest2
    | _ => false
  else false

end

theorem utf8Valid_of_ascii (s : Bytes) (h : ∀ b ∈ s, b ≤ 127) :
    utf8Valid s = true := by
  induction s with
  | nil => simp [utf8Valid]
  | cons b rest ih =>
    have hb : b ≤ 127 := h b (by simp)
    simp only [utf8Valid]
    rw [if_pos hb]
    exact ih fun x hx => h x (by simp [hx])

/-- Whether the byte sequence contains an adjacent CR LF pair. -/
def hasCRLF : Bytes → Bool
  | [] => false
  | [_] => false
  | a :: b :: rest => (a = 13 && b = 10) || hasCRLF (b :: rest)

theorem hasCRLF_of_no13 (s : Bytes) (h : ∀ b ∈ s, b ≠ 13) :
    hasCRLF s = false := by
  induction s with
  | nil => rfl
  | cons a rest ih =>
    cases rest with
    | nil => rfl
    | cons b rest2 =>
      have ha : a ≠ 13 := h a (by simp)
      have hr : hasCRLF (b :: rest2) = false := ih fun x hx => h x (by simp [hx])
      simp [hasCRLF, ha, hr]

/-- Model of `get_line` in `src/frame.rs`: scan for the first CR LF pair,
returning the bytes before it and the bytes after it; `none` when the buffer
holds no complete line yet (`Error::Incomplete`). -/
def getLine : Bytes → Option (Bytes × Bytes)
  | [] => none
  | [_] => none
  | a :: b :: rest =>
    if a = 13 ∧ b = 10 then some ([], rest)
    else
      match getLine (b :: rest) with
      | some (line, r) => some (a :: line, r)
      | none => none

theorem getLine_append (s rest : Bytes) (h : hasCRLF s = false) :
    getLine (s ++ 13 :: 10 :: rest) = some (s, rest) := by
  induction s with
  | nil => simp [getLine]
  | cons x s2 ih =>
    cases s2 with
    | nil => simp [getLine]
    | cons y s3 =>
      simp only [hasCRLF, Bool.or_eq_false_iff, Bool.and_eq_false_iff] at h
      have hcond : ¬ (x = 13 ∧ y = 10) := by
        rcases h.1 with h1 | h1 <;> simp at h1 <;> tauto
      have hr := ih h.2
      simp only [List.cons_append] at hr ⊢
      simp [getLine, hcond]
      simp [hr]

/-- Codec error: `Incomplete` asks the caller for more bytes, `Malformed`
is a protocol error terminating the connection. -/
inductive PErr where
  | Incomplete : PErr
  | Malformed : PErr
deriving DecidableEq, Repr

/-- Model of `get_decimal` in `src/frame.rs`: read one line, require UTF-8,
parse it as `u64`. -/
def getDecimal (bs : Bytes) : Except PErr (Nat × Bytes) :=
  match getLine bs with
  | none => .error .Incomplete
  | some (line, rest) =>
    if utf8Valid line then
      match parseU64 line with
      | some v => .ok (v, rest)
      | none => .error .Malformed
    else .error .Malformed

theorem getDecimal_digits (n : Nat) (rest : Bytes) (h : n < 2 ^ 64) :
    getDecimal (natDigits n ++ 13 :: 10 :: rest) = .ok (n, rest) := by
  have hd := natDigits_mem_digit n
  have hno13 : hasCRLF (natDigits n) = false :=
    hasCRLF_of_no13 _ fun b hb => by have := hd b hb; omega
  have hascii : utf8Valid (natDigits n) = true :=
    utf8Valid_of_ascii _ fun b hb => by have := hd b hb; omega
  simp [getDecimal, getLine_append _ _ hno13, hascii, parseU64_natDigits n h]

/-- RESP frame, as in `src/frame.rs` (`enum Frame`). `Integer` carries a
`u64` value (modelled as `Nat`, reduced mod 2^64 where the cast matters);
string payloads are UTF-8 byte lists. -/
inductive Frame where
  | Simple (s : Bytes)
  | Error (s : Bytes)
  | Integer (n : Nat)
  | Bulk (b : Bytes)
  | Arr (elems : List Frame)
  | Null
  | Rdb (header : Bytes) (payload : Bytes)
  | RawBytes (b : Bytes)
  | NoSend

/-- `encode_simple_string`: `+<s>\r\n`. -/
def encodeSimpleString (s : Bytes) : Bytes := 43 :: s ++ crlf

/-- `encode_simple_error`: `-<s>\r\n`. -/
def encodeSimpleError (s : Bytes) : Bytes := 45 :: s ++ crlf

/-- Decimal text of a `u64` value reinterpreted as `i64` (`*integer as i64`):
values at or above 2^63 print as negative numbers. -/
def i64Repr (n : Nat) : Bytes :=
  let m := n % 2 ^ 64
  if m < 2 ^ 63 then natDigits m else 45 :: natDigits (2 ^ 64 - m)

/-- `encode_integer`: `:<i64>\r\n`. -/
def encodeInteger (n : Nat) : Bytes := 58 :: i64Repr n ++ crlf

/-- `encode_bulk_string` on a present string: `$<len>\r\n<s>\r\n`. -/
def encodeBulkString (b : Bytes) : Bytes :=
  36 :: natDigits b.length ++ crlf ++ b ++ crlf

/-- `encode_null`: the RESP3 null `_\r\n`. -/
def encodeNull : Bytes := [95, 13, 10]

mutual

/-- Model of `Frame::encode` in `src/frame.rs`. Returns `none` exactly where
the Rust code panics: `Bulk`, `Rdb` and `RawBytes` run the payload through
`std::str::from_utf8(..).unwrap()` before encoding. -/
def Frame.encode : Frame → Option Bytes
  | .Simple s => some (encodeSimpleString s)
  | .Error s => some (encodeSimpleError s)
  | .Integer n => some (encodeInteger n)
  | .Bulk b => if utf8Valid b then some (encodeBulkString b) else none
  | .Arr fs =>
      match encodeFrames fs with
      | some body => some (42 :: natDigits fs.length ++ crlf ++ body)
      | none => none
  | .Null => some encodeNull
  | .Rdb s b =>
      if utf8Valid b then some (encodeSimpleString s ++ encodeBulkString b) else none
  | .RawBytes b =>
      if utf8Valid b then some (36 :: natDigits b.length ++ crlf ++ b) else none
  | .NoSend => some []

/-- Concatenated encodings of the elements of an array frame
(the loop of `encode_array`). -/
def encodeFrames : List Frame → Option Bytes
  | [] => some []
  | f :: fs =>
      match f.encode, encodeFrames fs with
      | some bf, some rest => some (bf ++ rest)
      | _, _ => none

end

/-- `write_decimal` in `src/connection.rs`: decimal digits plus CRLF, staged
through a fixed 12-byte buffer (fails for values needing more digits). -/
def writeDecimal (n : Nat) : Option Bytes :=
  if (natDigits n).length ≤ 12 then some (natDigits n ++ crlf) else none

mutual

/-- Model of `ConnectionWriterActor::write_value` in `src/connection.rs`:
the bytes the writer actor emits for a frame. Binary payloads are written
directly with `write_all`, with no UTF-8 conversion. -/
def writeValue : Frame → Option Bytes
  | .Simple s => some (43 :: s ++ crlf)
  | .Error s => some (45 :: s ++ crlf)
  | .Integer n => (writeDecimal n).map fun d => 58 :: d
  | .Bulk b => (writeDecimal b.length).map fun d => 36 :: d ++ b ++ crlf
  | .Null => some [36, 45, 49, 13, 10]
  | .Rdb h b => (writeDecimal b.length).map fun d => (43 :: h ++ crlf) ++ 36 :: d ++ b
  | .RawBytes b => (writeDecimal b.length).map fun d => 36 :: d ++ b
  | .NoSend => some []
  | .Arr fs =>
      match writeDecimal fs.length, writeFrames fs with
      | some d, some body => some (42 :: d ++ body)
      | _, _ => none

/-- The writer actor's output for the elements of an array frame. -/
def writeFrames : List Frame → Option Bytes
  | [] => some []
  | f :: fs =>
      match writeValue f, writeFrames fs with
      | some bf, some rest => some (bf ++ rest)
      | _, _ => none

end

/-- The element loop of `Frame::parse` for arrays: parse `n` frames with the
single-frame parser `p`. -/
def parseManyWith (p : Bytes → Except PErr (Frame × Bytes)) :
    Nat → Bytes → Except PErr (List Frame × Bytes)
  | 0, bs => .ok ([], bs)
  | n + 1, bs =>
    match p bs with
    | .error e => .error e
    | .ok (f, r) =>
      match parseManyWith p n r with
      | .error e => .error e
      | .ok (fs, r2) => .ok (f :: fs, r2)

/-- One step of `Frame::parse` in `src/frame.rs`: dispatch on the tag byte
`b`; nested frames of an array are parsed with `p`. Note the `$-` arm
compares the line *without* its CRLF against the four-byte literal
`-1\r\n`, exactly as the Rust code does. -/
def parseFrameStep (p : Bytes → Except PErr (Frame × Bytes)) (b : Nat)
    (rest : Bytes) : Except PErr (Frame × Bytes) :=
  if b = 43 then
    match getLine rest with
    | none => .error .Incomplete
    | some (line, r) =>
        if utf8Valid line then .ok (.Simple line, r) else .error .Malformed
  else if b = 45 then
    match getLine rest with
    | none => .error .Incomplete
    | some (line, r) =>
        if utf8Valid line then .ok (.Error line, r) else .error .Malformed
  else if b = 58 then
    match getDecimal rest with
    | .error e => .error e
    | .ok (v, r) => .ok (.Integer v, r)
  else if b = 36 then
    match rest with
    | [] => .error .Incomplete
    | c :: _ =>
      if c = 45 then
        match getLine rest with
        | none => .error .Incomplete
        | some (line, r) =>
            if line = [45, 49, 13, 10] then .ok (.Null, r) else .error .Malformed
      else
        match getDecimal rest with
        | .error e => .error e
        | .ok (len, r) =>
            if r.length < len + 2 then .error .Incomplete
            else .ok (.Bulk (r.take len), r.drop (len + 2))
  else if b = 42 then
    match getDecimal rest with
    | .error e => .error e
    | .ok (len, r) =>
        match parseManyWith p len r with
        | .error e => .error e
        | .ok (fs, r2) => .ok (.Arr fs, r2)
  else .error .Malformed

/-- Fuelled model of `Frame::parse` in `src/frame.rs`. The fuel only bounds
the nesting depth of arrays; it is chosen large enough by the caller
(`Frame.parse`) that it never runs out on inputs the Rust parser handles. -/
def parseFrame : Nat → Bytes → Except PErr (Frame × Bytes)
  | _, [] => .error .Incomplete
  | 0, _ :: _ => .error .Malformed
  | fuel + 1, b :: rest => parseFrameStep (parseFrame fuel) b rest

/-- `Frame::parse` on a byte buffer. Every recursive step of the Rust parser
consumes at least one byte, so a fuel of the buffer length never runs out. -/
def Frame.parse (bs : Bytes) : Except PErr (Frame × Bytes) :=
  parseFrame bs.length bs

mutual

/-- Frames for which the claimed encode/decode round trip can hold: `Simple`
and `Error` text without an embedded CRLF, `Integer` values whose `i64` cast
is non-negative, UTF-8-valid `Bulk` payloads, and arrays of such frames
(list and payload lengths within `usize`/`u64` range, as in Rust). -/
def Frame.good : Frame → Bool
  | .Simple s => utf8Valid s && !hasCRLF s
  | .Error s => utf8Valid s && !hasCRLF s
  | .Integer n => n < 2 ^ 63
  | .Bulk b => utf8Valid b && b.length < 2 ^ 64
  | .Arr fs => (fs.length < 2 ^ 64 : Bool) && goodFrames fs
  | _ => false

/-- All elements of an array frame are good. -/
def goodFrames : List Frame → Bool
  | [] => true
  | f :: fs => f.good && goodFrames fs

end

mutual

/-- Nesting depth of a frame (arrays add one level). -/
def Frame.depth : Frame → Nat
  | .Arr fs => depthFrames fs + 1
  | _ => 1

/-- Maximum nesting depth over the elements of an array frame. -/
def depthFrames : List Frame → Nat
  | [] => 0
  | f :: fs => max f.depth (depthFrames fs)

end

theorem take_append_len (a b : Bytes) : (a ++ b).take a.length = a := by
  induction a with
  | nil => simp
  | cons x a ih => simp [List.take_succ_cons, ih]

theorem drop_append_len (a b : Bytes) (k : Nat) :
    (a ++ b).drop (a.length + k) = b.drop k := by
  induction a with
  | nil => simp
  | cons x a ih => simpa [Nat.succ_add] using ih

theorem parseManyWith_encode (fuel : Nat)
    (ihf : ∀ f bs rest, Frame.good f = true → Frame.encode f = some bs →
      Frame.depth f ≤ fuel → parseFrame fuel (bs ++ rest) = .ok (f, rest)) :
    ∀ fs body rest, goodFrames fs = true → encodeFrames fs = some body →
      depthFrames fs ≤ fuel →
      parseManyWith (parseFrame fuel) fs.length (body ++ rest) = .ok (fs, rest) := by
  intro fs
  induction fs with
  | nil =>
    intro body rest hg he hd
    simp [encodeFrames] at he
    subst he
    simp [parseManyWith]
  | cons f fs ih =>
    intro body rest hg he hd
    simp only [goodFrames, Bool.and_eq_true] at hg
    simp only [depthFrames, Nat.max_le] at hd
    simp only [encodeFrames] at he
    cases he1 : Frame.encode f with
    | none => rw [he1] at he; simp at he
    | some bf =>
      cases he2 : encodeFrames fs with
      | none => rw [he1, he2] at he; simp at he
      | some rest2 =>
        rw [he1, he2] at he
        simp at he
        subst he
        have h1 := ihf f bf (rest2 ++ rest) hg.1 he1 hd.1
        have h2 := ih rest2 rest hg.2 he2 hd.2
        simp only [List.length_cons, parseManyWith, List.append_assoc]
        rw [h1]
        simp [h2]

theorem parseFrame_encode :
    ∀ fuel f bs rest, Frame.good f = true → Frame.encode f = some bs →
      Frame.depth f ≤ fuel → parseFrame fuel (bs ++ rest) = .ok (f, rest) := by
  intro fuel
  induction fuel with
  | zero =>
    intro f bs rest hg he hd
    cases f <;> simp [Frame.depth] at hd
  | succ fuel ih =>
    intro f bs rest hg he hd
    cases f with
    | Simple s =>
      simp only [Frame.encode, Option.some_inj] at he
      subst he
      simp only [Frame.good, Bool.and_eq_true, Bool.not_eq_true'] at hg
      simp only [encodeSimpleString, crlf, List.cons_append, List.append_assoc]
      simp [parseFrame, parseFrameStep, getLine_append s rest hg.2, hg.1]
    | Error s =>
      simp only [Frame.encode, Option.some_inj] at he
      subst he
      simp only [Frame.good, Bool.and_eq_true, Bool.not_eq_true'] at hg
      simp only [encodeSimpleError, crlf, List.cons_append, List.append_assoc]
      simp [parseFrame, parseFrameStep, getLine_append s rest hg.2, hg.1]
    | Integer n =>
      simp only [Frame.encode, Option.some_inj] at he
      subst he
      simp only [Frame.good, decide_eq_true_eq] at hg
      have hmod : n % 2 ^ 64 = n := Nat.mod_eq_of_lt (by omega)
      simp only [encodeInteger, i64Repr, hmod, if_pos hg, crlf,
        List.cons_append, List.append_assoc]
      simp [parseFrame, parseFrameStep, getDecimal_digits n rest (by omega)]
    | Bulk b =>
      simp only [Frame.encode] at he
      simp only [Frame.good, Bool.and_eq_true, decide_eq_true_eq] at hg
      rw [if_pos hg.1] at he
      simp only [Option.some_inj] at he
      subst he
      obtain ⟨d0, ds, hds⟩ : ∃ d0 ds, natDigits b.length = d0 :: ds := by
        cases h : natDigits b.length with
        | nil => exact absurd h (natDigits_ne_nil _)
        | cons d0 ds => exact ⟨d0, ds, rfl⟩
      have hd0 : 48 ≤ d0 ∧ d0 ≤ 57 := natDigits_mem_digit _ d0 (by rw [hds]; simp)
      have hdec := getDecimal_digits b.length (b ++ 13 :: 10 :: rest) hg.2
      simp only [encodeBulkString, crlf, List.cons_append, List.append_assoc]
      rw [hds] at hdec ⊢
      simp only [List.cons_append, List.append_assoc] at hdec ⊢
      simp only [parseFrame, parseFrameStep]
      have h45 : ¬ d0 = 45 := by omega
      have hlen : ¬ (b ++ 13 :: 10 :: rest).length < b.length + 2 := by
        simp [List.length_append]
      have htake : (b ++ 13 :: 10 :: rest).take b.length = b := by
        simpa using take_append_len b (13 :: 10 :: rest)
      have hdrop : (b ++ 13 :: 10 :: rest).drop (b.length + 2) = rest := by
        simpa using drop_append_len b (13 :: 10 :: rest) 2
      simp [h45, hdec, hlen, htake, hdrop]
    | Arr fs =>
      simp only [Frame.encode] at he
      simp only [Frame.good, Bool.and_eq_true, decide_eq_true_eq] at hg
      cases hbody : encodeFrames fs with
      | none => rw [hbody] at he; simp at he
      | some body =>
        rw [hbody] at he
        simp only [Option.some_inj] at he
        subst he
        simp only [Frame.depth] at hd
        have hfs := parseManyWith_encode fuel ih fs body rest hg.2 hbody (by omega)
        simp only [crlf, List.cons_append, List.append_assoc]
        simp only [parseFrame, parseFrameStep]
        simp [getDecimal_digits fs.length (body ++ rest) hg.1, hfs]
    | Null => simp [Frame.good] at hg
    | Rdb h b => simp [Frame.good] at hg
    | RawBytes b => simp [Frame.good] at hg
    | NoSend => simp [Frame.good] at hg

theorem depth_le_encLen :
    ∀ N f, sizeOf f ≤ N → Frame.good f = true → ∀ bs, Frame.encode f = some bs →
      Frame.depth f ≤ bs.length := by
  intro N
  induction N with
  | zero =>
    intro f hN
    cases f <;> simp at hN
  | succ N ihN =>
    intro f hN hgood bs he
    cases f with
    | Arr fs =>
      simp only [Frame.encode] at he
      cases hbody : encodeFrames fs with
      | none => rw [hbody] at he; simp at he
      | some body =>
        rw [hbody] at he
        simp only [Option.some_inj] at he
        subst he
        have hsz : sizeOf fs ≤ N := by
          have := Frame.Arr.sizeOf_spec fs
          omega
        simp only [Frame.good, Bool.and_eq_true, decide_eq_true_eq] at hgood
        have hlist : ∀ gs, sizeOf gs ≤ sizeOf fs → goodFrames gs = true → ∀ body2,
            encodeFrames gs = some body2 → depthFrames gs ≤ body2.length := by
          intro gs
          induction gs with
          | nil => intro _ _ body2 hb; simp [encodeFrames] at hb; subst hb; simp [depthFrames]
          | cons g gs ihg =>
            intro hsz2 hgood2 body2 hb
            simp only [goodFrames, Bool.and_eq_true] at hgood2
            simp only [encodeFrames] at hb
            cases hg1 : Frame.encode g with
            | none => rw [hg1] at hb; simp at hb
            | some bg =>
              cases hg2 : encodeFrames gs with
              | none => rw [hg1, hg2] at hb; simp at hb
              | some brest =>
                rw [hg1, hg2] at hb
                simp only [Option.some_inj] at hb
                subst hb
                have hszg : sizeOf g ≤ N := by
                  have := List.cons.sizeOf_spec g gs
                  omega
                have hszgs : sizeOf gs ≤ sizeOf fs := by
                  have := List.cons.sizeOf_spec g gs
                  omega
                have ih1 := ihN g hszg hgood2.1 bg hg1
                have ih2 := ihg (by
                  have := List.cons.sizeOf_spec g gs
                  omega) hgood2.2 brest hg2
                simp only [depthFrames, List.length_append, Nat.max_le]
                omega
        have := hlist fs (le_refl _) hgood.2 body hbody
        simp only [Frame.depth, List.length_cons, List.length_append, crlf]
        simp only [List.length_cons, List.length_nil]
        omega
    | Simple s =>
      simp only [Frame.encode, Option.some_inj] at he
      subst he
      simp [Frame.depth, encodeSimpleString]
    | Error s =>
      simp only [Frame.encode, Option.some_inj] at he
      subst he
      simp [Frame.depth, encodeSimpleError]
    | Integer n =>
      simp only [Frame.encode, Option.some_inj] at he
      subst he
      simp [Frame.depth, encodeInteger]
    | Bulk b =>
      simp only [Frame.encode] at he
      by_cases hu : utf8Valid b = true
      · rw [if_pos hu] at he
        simp only [Option.some_inj] at he
        subst he
        simp [Frame.depth, encodeBulkString]
      · rw [if_neg hu] at he; simp at he
    | Null =>
      simp only [Frame.encode, Option.some_inj] at he
      subst he
      simp [Frame.depth, encodeNull]
    | Rdb h b =>
      simp only [Frame.encode] at he
      by_cases hu : utf8Valid b = true
      · rw [if_pos hu] at he
        simp only [Option.some_inj] at he
        subst he
        simp [Frame.depth, encodeSimpleString, encodeBulkString]
      · rw [if_neg hu] at he; simp at he
    | RawBytes b =>
      simp only [Frame.encode] at he
      by_cases hu : utf8Valid b = true
      · rw [if_pos hu] at he
        simp only [Option.some_inj] at he
        subst he
        simp [Frame.depth]
      · rw [if_neg hu] at he; simp at he
    | NoSend => simp [Frame.good] at hgood

theorem encode_some_of_good :
    ∀ N f, sizeOf f ≤ N → Frame.good f = true → ∃ bs, Frame.encode f = some bs := by
  intro N
  induction N with
  | zero =>
    intro f hN
    cases f <;> simp at hN
  | succ N ihN =>
    intro f hN hgood
    cases f with
    | Arr fs =>
      simp only [Frame.good, Bool.and_eq_true, decide_eq_true_eq] at hgood
      have hsz : sizeOf fs ≤ N := by
        have := Frame.Arr.sizeOf_spec fs
        omega
      have hlist : ∀ gs, sizeOf gs ≤ sizeOf fs → goodFrames gs = true →
          ∃ body, encodeFrames gs = some body := by
        intro gs
        induction gs with
        | nil => intro _ _; exact ⟨[], rfl⟩
        | cons g gs ihg =>
          intro hsz2 hgood2
          simp only [goodFrames, Bool.and_eq_true] at hgood2
          have hszg : sizeOf g ≤ N := by
            have := List.cons.sizeOf_spec g gs
            omega
          obtain ⟨bg, hbg⟩ := ihN g hszg hgood2.1
          obtain ⟨brest, hbrest⟩ := ihg (by
            have := List.cons.sizeOf_spec g gs
            omega) hgood2.2
          exact ⟨bg ++ brest, by simp [encodeFrames, hbg, hbrest]⟩
      obtain ⟨body, hbody⟩ := hlist fs (le_refl _) hgood.2
      exact ⟨42 :: natDigits fs.length ++ crlf ++ body, by simp [Frame.encode, hbody]⟩
    | Simple s => exact ⟨_, rfl⟩
    | Error s => exact ⟨_, rfl⟩
    | Integer n => exact ⟨_, rfl⟩
    | Bulk b =>
      simp only [Frame.good, Bool.and_eq_true, decide_eq_true_eq] at hgood
      exact ⟨encodeBulkString b, by simp [Frame.encode, hgood.1]⟩
    | Null => exact ⟨_, rfl⟩
    | Rdb h b => simp [Frame.good] at hgood
    | RawBytes b => simp [Frame.good] at hgood
    | NoSend => simp [Frame.good] at hgood

/-- C3 (counterexample): the claim includes the null bulk in the round trip,
but the encoder emits the RESP3 null `_\r\n` for `Frame::Null`, which
`Frame::parse` rejects as a malformed tag byte, so
`decode(encode(Null)) ≠ Null`. (Moreover the parser never accepts `$-1\r\n`
either: it compares the extracted line `-1` against the four-byte literal
`-1\r\n`, which cannot match.) -/
theorem nullFrameRoundtripFails :
    Frame.encode Frame.Null = some [95, 13, 10] ∧
    Frame.parse [95, 13, 10] = Except.error PErr.Malformed ∧
    Frame.parse [36, 45, 49, 13, 10] = Except.error PErr.Malformed :=
  ⟨rfl, rfl, rfl⟩

/-- C3 (amended): for every `good` frame — `Simple`/`Error` text containing
no CRLF, `Integer` below 2^63, UTF-8-valid `Bulk`, and arrays of such
frames — the encoder succeeds and decoding the encoded bytes returns the
same frame with no bytes left over. `Null` (the null bulk), `Rdb`,
`RawBytes` and `NoSend` are excluded: `Null` has no decodable wire form. -/
theorem respEncodeDecodeRoundtrip (f : Frame) (h : Frame.good f = true) :
    ∃ bs, Frame.encode f = some bs ∧ Frame.parse bs = Except.ok (f, []) := by
  obtain ⟨bs, hbs⟩ := encode_some_of_good (sizeOf f) f (le_refl _) h
  refine ⟨bs, hbs, ?_⟩
  have hdep := depth_le_encLen (sizeOf f) f (le_refl _) h bs hbs
  have hp := parseFrame_encode bs.length f bs [] h hbs hdep
  simpa [Frame.parse] using hp

/-- C3 (witness): the round trip at a concrete nested frame. -/
theorem respEncodeDecodeRoundtripWitness :
    Frame.good (Frame.Arr [Frame.Simple (ascii "OK"), Frame.Bulk (ascii "hello"),
      Frame.Integer 42]) = true ∧
    ∃ bs, Frame.encode (Frame.Arr [Frame.Simple (ascii "OK"),
      Frame.Bulk (ascii "hello"), Frame.Integer 42]) = some bs ∧
      Frame.parse bs = Except.ok (Frame.Arr [Frame.Simple (ascii "OK"),
        Frame.Bulk (ascii "hello"), Frame.Integer 42], []) :=
  ⟨by decide, respEncodeDecodeRoundtrip _ (by decide)⟩

/-- C10: `Frame::encode` is partial: for `Bulk`, `Rdb` and `RawBytes` frames
it unwraps a UTF-8 conversion of the payload, so encoding any such frame
with a non-UTF-8 payload panics (modelled as `none`); the writer actor's
`write_value` path instead writes the length-prefixed binary payload
directly (its only partiality is the 12-byte decimal staging buffer for the
length, which covers every length below 10^12). -/
theorem encodePanicsOnNonUtf8 (b hdr : Bytes) (hb : utf8Valid b = false)
    (hlen : (natDigits b.length).length ≤ 12) :
    Frame.encode (.Bulk b) = none ∧ Frame.encode (.RawBytes b) = none ∧
    Frame.encode (.Rdb hdr b) = none ∧
    writeValue (.Bulk b) = some (36 :: natDigits b.length ++ crlf ++ b ++ crlf) ∧
    writeValue (.RawBytes b) = some (36 :: natDigits b.length ++ crlf ++ b) ∧
    writeValue (.Rdb hdr b) =
      some ((43 :: hdr ++ crlf) ++ 36 :: (natDigits b.length ++ crlf) ++ b) := by
  refine ⟨?_, ?_, ?_, ?_, ?_, ?_⟩ <;>
    simp [Frame.encode, hb, writeValue, writeDecimal, hlen]

/-- C10 (witness): the payload byte `0xFF` is not valid UTF-8; encoding it
as a bulk panics while the writer actor emits `$1\r\n\xff`. -/
theorem encodePanicsOnNonUtf8Witness :
    utf8Valid [255] = false ∧ (natDigits ([255] : Bytes).length).length ≤ 12 ∧
    Frame.encode (.Bulk [255]) = none ∧
    writeValue (.RawBytes [255]) = some (36 :: natDigits 1 ++ crlf ++ [255]) := by
  have h := encodePanicsOnNonUtf8 [255] [] (by decide) (by decide)
  refine ⟨by decide, by decide, h.1, ?_⟩
  simpa using h.2.2.2.2.1

/-! ## Keyspace engine (`src/db.rs`) -/

/-- Stream entry id `StreamEntryId(u128, usize)`, ordered lexicographically
(the derived `PartialOrd` on the tuple struct). -/
structure StreamEntryId where
  ms : Nat
  seq : Nat
deriving DecidableEq, Repr

/-- Lexicographic strict order on stream ids (derived `PartialOrd` `<`). -/
def idLt (a b : StreamEntryId) : Bool :=
  a.ms < b.ms || (a.ms = b.ms && a.seq < b.seq)

/-- One stream entry: id plus field/value pairs. -/
structure StreamEntry where
  id : StreamEntryId
  keyValue : List (String × Bytes)
deriving DecidableEq, Repr

/-- A stream: its ordered entry vector. The broadcast `update_sender` is a
concurrency notifier with no effect on the stored entries and is not
modelled. -/
structure RStream where
  entries : List StreamEntry
deriving DecidableEq, Repr

/-- `Stream::get_last_id`: the id of the last entry, `(0, 0)` for an empty
stream. -/
def streamLastId (s : RStream) : StreamEntryId :=
  ((s.entries.getLast?).map StreamEntry.id).getD ⟨0, 0⟩

/-- The id argument of XADD (`enum XAddId` in `src/command/xadd.rs`). -/
inductive XAddId where
  | Auto
  | AutoSeq (ts : Nat)
  | Explicit (id : StreamEntryId)
deriving DecidableEq, Repr

/-- The id-assignment `match` inside `Db::xadd` (`src/db.rs`): `Auto` counts
entries sharing the current wall-clock millisecond `now`; `AutoSeq` counts
entries sharing the given millisecond, shifting by one when it is zero;
`Explicit` is validated against the last entry id with two independent
checks (`timestamp < last_timestamp`, then `seq <= last_seq` — the second
check is not conditioned on the timestamps being equal). -/
def xaddId (s : RStream) (idSpec : XAddId) (now : Nat) :
    Except String StreamEntryId :=
  match idSpec with
  | .Auto =>
      let seq := (s.entries.filter fun e => e.id.ms = now).length
      .ok ⟨now, seq⟩
  | .AutoSeq ts =>
      let seq := (s.entries.filter fun e => e.id.ms = ts).length
      let seq := if ts = 0 then seq + 1 else seq
      .ok ⟨ts, seq⟩
  | .Explicit id =>
      let last := streamLastId s
      if id.ms < last.ms then .error "Timestamp is less than the last timestamp"
      else if id.seq ≤ last.seq then
        .error "Sequence is less than the last sequence or equal to it"
      else .ok id

/-- A string entry (`StringEntry`): expiry-index tiebreaker id, value, and
optional deadline (instants modelled as `Nat`). -/
structure StringEntry where
  id : Nat
  value : Bytes
  expiresAt : Option Nat
deriving DecidableEq, Repr

/-- A stored entry (`enum Entry`). -/
inductive Entry where
  | str (e : StringEntry)
  | stream (s : RStream)
deriving DecidableEq, Repr

/-- `HashMap::get` on an association list. -/
def hmGet (k : String) : List (String × Entry) → Option Entry
  | [] => none
  | (k2, v) :: rest => if k2 = k then some v else hmGet k rest

/-- `HashMap::insert` on an association list: replaces the entry for `k` in
place (returning the previous value) or appends. -/
def hmInsert (k : String) (v : Entry) :
    List (String × Entry) → List (String × Entry) × Option Entry
  | [] => ([(k, v)], none)
  | (k2, v2) :: rest =>
    if k2 = k then ((k, v) :: rest, some v2)
    else
      let p := hmInsert k v rest
      ((k2, v2) :: p.1, p.2)

/-- `HashMap::remove` on an association list (keys are unique). -/
def hmRemove (k : String) : List (String × Entry) → List (String × Entry)
  | [] => []
  | (k2, v2) :: rest => if k2 = k then rest else (k2, v2) :: hmRemove k rest

/-- Lexicographic strict order on `(Instant, id)` expiry-index keys
(the `Ord` instance a `BTreeMap<(Instant, u64), _>` sorts by). -/
def keyLt (a b : Nat × Nat) : Bool := a.1 < b.1 || (a.1 = b.1 && a.2 < b.2)

/-- `BTreeMap::insert` modelled as ordered insertion into a key-sorted
association list (replacing an equal key). -/
def btInsert (k : Nat × Nat) (v : String) :
    List ((Nat × Nat) × String) → List ((Nat × Nat) × String)
  | [] => [(k, v)]
  | (k2, v2) :: rest =>
    if keyLt k k2 then (k, v) :: (k2, v2) :: rest
    else if k = k2 then (k, v) :: rest
    else (k2, v2) :: btInsert k v rest

/-- `BTreeMap::remove` on a key-sorted association list (keys unique, so
removing the first match removes the only one). -/
def btRemove (k : Nat × Nat) :
    List ((Nat × Nat) × String) → List ((Nat × Nat) × String)
  | [] => []
  | (k2, v2) :: rest => if k2 = k then rest else (k2, v2) :: btRemove k rest

/-- `Store::next_expiry`: the first (smallest) key's instant of the sorted
expiry index. -/
def btMin (l : List ((Nat × Nat) × String)) : Option Nat :=
  l.head?.map fun r => r.1.1

/-- The `Store` of `src/db.rs`: key/entry map, deadline-ordered expiry
index, fresh-id counter, shutdown flag. -/
structure Store where
  data : List (String × Entry)
  expires : List ((Nat × Nat) × String)
  nextId : Nat
  isDropped : Bool
deriving DecidableEq, Repr

/-- The store of a freshly created `Db` (`Shared::new`). -/
def emptyStore : Store := ⟨[], [], 0, false⟩

/-- Model of `Db::set` (`src/db.rs`): assign a fresh id, install the new
deadline row (noting whether the reaper must be woken), overwrite the entry,
and drop the previous entry's deadline row if it was an expiring string.
Returns the updated store and the `should_notify` flag. -/
def dbSet (st : Store) (key : String) (value : Bytes) (expire : Option Nat)
    (now : Nat) : Store × Bool :=
  let id := st.nextId
  let step :=
    match expire with
    | some dur =>
        let w := now + dur
        let shouldNotify :=
          match btMin st.expires with
          | some next => decide (w < next)
          | none => true
        (some w, btInsert (w, id) key st.expires, shouldNotify)
    | none => (none, st.expires, false)
  let entry := Entry.str ⟨id, value, step.1⟩
  let p := hmInsert key entry st.data
  let expires2 :=
    match p.2 with
    | some (.str pe) =>
        match pe.expiresAt with
        | some pexp => btRemove (pexp, pe.id) step.2.1
        | none => step.2.1
    | _ => step.2.1
  (⟨p.1, expires2, st.nextId + 1, st.isDropped⟩, step.2.2)

/-- The loop of `Shared::remove_expired` (`src/db.rs`): pop index rows while
their deadline has passed; delete the mapped key only when the stored entry
is a string whose id matches the row's id; stop at the first future
deadline, returning it. Relies on the expiry index being key-sorted, so the
first row is the `BTreeMap` minimum and `remove(&(expiry, id))` drops
exactly the head. -/
def reapLoop (now : Nat) (data : List (String × Entry)) :
    List ((Nat × Nat) × String) →
      List (String × Entry) × List ((Nat × Nat) × String) × Option Nat
  | [] => (data, [], none)
  | ((exp, i), key) :: rest =>
    if now < exp then (data, ((exp, i), key) :: rest, some exp)
    else
      let data2 :=
        match hmGet key data with
        | some (.str se) => if se.id = i then hmRemove key data else data
        | _ => data
      reapLoop now data2 rest

/-- Model of `Shared::remove_expired`: no-op when the store is shutting
down, otherwise one reaper pass. Returns the updated store and the next
deadline (if any). -/
def removeExpired (st : Store) (now : Nat) : Store × Option Nat :=
  if st.isDropped then (st, none)
  else
    let r := reapLoop now st.data st.expires
    (⟨r.1, r.2.1, st.nextId, st.isDropped⟩, r.2.2)

/-- Model of `Db::xadd` (`src/db.rs`): look up the stream (inserting an
empty one when the key is absent — the `entry(..).or_insert_with` call),
refuse non-stream entries, compute/validate the id, append, and return the
formatted `ms-seq` text. The updated store is returned on both paths so the
`or_insert_with` side effect is kept. -/
def dbXadd (st : Store) (key : String) (idSpec : XAddId)
    (kv : List (String × Bytes)) (now : Nat) : Store × Except String Bytes :=
  let looked :=
    match hmGet key st.data with
    | some e => (st.data, e)
    | none =>
        let empty := Entry.stream ⟨[]⟩
        ((hmInsert key empty st.data).1, empty)
  match looked.2 with
  | .str _ =>
      ({ st with data := looked.1 },
        .error "ERR Operation against a key holding the wrong kind of value")
  | .stream s =>
    match xaddId s idSpec now with
    | .error e => ({ st with data := looked.1 }, .error e)
    | .ok id =>
        let s2 : RStream := ⟨s.entries ++ [⟨id, kv⟩]⟩
        ({ st with data := (hmInsert key (Entry.stream s2) looked.1).1 },
          .ok (natDigits id.ms ++ [45] ++ natDigits id.seq))

/-- `XAdd::execute` (`src/command/xadd.rs`): a successful append answers the
id as a bulk string; every error is surfaced as the fixed XADD error
frame. -/
def xaddExecute (st : Store) (key : String) (idSpec : XAddId)
    (kv : List (String × Bytes)) (now : Nat) : Store × Frame :=
  match dbXadd st key idSpec kv now with
  | (st2, .ok idText) => (st2, .Bulk idText)
  | (st2, .error _) =>
      (st2, .Error (ascii
        "ERR The ID specified in XADD is equal or smaller than the target stream top item"))

/-- `Db::get_type` (`src/db.rs`). -/
def getType (st : Store) (k : String) : String :=
  match hmGet k st.data with
  | some (.str _) => "string"
  | some (.stream _) => "stream"
  | none => "none"

/-- `Db::keys` (`src/db.rs`): snapshot of the current keys. -/
def dbKeys (st : Store) : List String := st.data.map Prod.fst

/-- The subscription loop at the top of `Db::xread` (`src/db.rs`), run only
when `block` is set: for each requested key, `entry(key).or_insert_with`
inserts an empty stream when the key is absent (keys holding other entry
kinds are left alone). -/
def xreadTouch (st : Store) (keys : List String) : Store :=
  match keys with
  | [] => st
  | k :: rest =>
      let data2 :=
        match hmGet k st.data with
        | some _ => st.data
        | none => (hmInsert k (Entry.stream ⟨[]⟩) st.data).1
      xreadTouch { st with data := data2 } rest

/-- The collection phase of `Db::xread`: for each key holding a stream,
the entries whose id is strictly greater than the floor id at the same
position (`(0, 0)` when absent); other keys are skipped. -/
def xreadCollect (data : List (String × Entry)) (ids : List StreamEntryId) :
    Nat → List String → List (String × List StreamEntry)
  | _, [] => []
  | idx, k :: rest =>
    match hmGet k data with
    | some (.stream s) =>
        let floor := (ids.get? idx).getD ⟨0, 0⟩
        (k, s.entries.filter fun e => idLt floor e.id) ::
          xreadCollect data ids (idx + 1) rest
    | _ => xreadCollect data ids (idx + 1) rest

/-- Model of `Db::xread` (`src/db.rs`): subscribe (mutating the store) when
`block` is set, then collect. The wait between the two phases is a
concurrency effect; under a quiescent store the collection runs on the
post-subscription store, as here. -/
def dbXread (st : Store) (keys : List String) (ids : List StreamEntryId)
    (block : Option Nat) : Store × List (String × List StreamEntry) :=
  let st2 := if block.isSome then xreadTouch st keys else st
  (st2, xreadCollect st2.data ids 0 keys)

/-- Decidable equality for `Except` results (not provided by core). -/
instance {ε α : Type} [DecidableEq ε] [DecidableEq α] :
    DecidableEq (Except ε α) := fun a b =>
  match a, b with
  | .ok x, .ok y =>
      if h : x = y then isTrue (by rw [h])
      else isFalse (fun hc => h (by injection hc))
  | .error x, .error y =>
      if h : x = y then isTrue (by rw [h])
      else isFalse (fun hc => h (by injection hc))
  | .ok _, .error _ => isFalse (fun hc => Except.noConfusion hc)
  | .error _, .ok _ => isFalse (fun hc => Except.noConfusion hc)

/-! ## Stream ordering (claims C1, C2) -/

/-- Entries in strictly increasing id order. -/
def entriesSorted : List StreamEntry → Bool
  | [] => true
  | [_] => true
  | a :: b :: rest => idLt a.id b.id && entriesSorted (b :: rest)

theorem idLt_trans (a b c : StreamEntryId) (h1 : idLt a b = true)
    (h2 : idLt b c = true) : idLt a c = true := by
  simp only [idLt, Bool.or_eq_true, Bool.and_eq_true, decide_eq_true_eq] at h1 h2 ⊢
  omega

theorem entriesSorted_tail (a : StreamEntry) (l : List StreamEntry)
    (h : entriesSorted (a :: l) = true) : entriesSorted l = true := by
  cases l with
  | nil => rfl
  | cons b rest =>
    simp only [entriesSorted, Bool.and_eq_true] at h
    exact h.2

theorem sorted_le_last (l : List StreamEntry) (h : entriesSorted l = true) :
    ∀ x, l.getLast? = some x → ∀ e ∈ l, idLt e.id x.id = true ∨ e.id = x.id := by
  induction l with
  | nil => intro x hx; simp at hx
  | cons a l ih =>
    intro x hx e he
    cases l with
    | nil =>
      simp at hx he
      subst hx he
      right
      rfl
    | cons b rest =>
      have hlast : (b :: rest).getLast? = some x := by
        simpa [List.getLast?_cons_cons] using hx
      simp only [entriesSorted, Bool.and_eq_true] at h
      rcases List.mem_cons.mp he with he1 | he1
      · subst he1
        have hb := ih h.2 x hlast b (by simp)
        rcases hb with hb | hb
        · exact Or.inl (idLt_trans _ _ _ h.1 hb)
        · refine Or.inl ?_
          rw [← hb]
          exact h.1
      · exact ih h.2 x hlast e he1

theorem sorted_append_last (l : List StreamEntry) (y : StreamEntry)
    (h : entriesSorted l = true)
    (hlt : ∀ x, l.getLast? = some x → idLt x.id y.id = true) :
    entriesSorted (l ++ [y]) = true := by
  induction l with
  | nil => rfl
  | cons a l ih =>
    cases l with
    | nil =>
      have := hlt a (by simp)
      simp [entriesSorted, this]
    | cons b rest =>
      simp only [entriesSorted, Bool.and_eq_true] at h
      have := ih h.2 (by
        intro x hx
        exact hlt x (by simpa [List.getLast?_cons_cons] using hx))
      simpa [entriesSorted, h.1] using this

/-- C1 (amended): a successful XADD with an *explicit* id appends an id
strictly greater than every id already in a sorted stream, and keeps the
entry sequence strictly increasing. (`Auto` and `AutoSeq` ids are *not*
validated against the last id, and can append out of order — see the
counterexample.) -/
theorem xaddExplicitStrictlyIncreases (s : RStream) (id r : StreamEntryId)
    (kv : List (String × Bytes)) (now : Nat)
    (hsorted : entriesSorted s.entries = true)
    (hok : xaddId s (.Explicit id) now = .ok r) :
    r = id ∧ (∀ e ∈ s.entries, idLt e.id id = true) ∧
    entriesSorted (s.entries ++ [⟨id, kv⟩]) = true := by
  simp only [xaddId] at hok
  by_cases h1 : id.ms < (streamLastId s).ms
  · rw [if_pos h1] at hok
    exact absurd hok (by simp)
  by_cases h2 : id.seq ≤ (streamLastId s).seq
  · rw [if_neg h1, if_pos h2] at hok
    exact absurd hok (by simp)
  rw [if_neg h1, if_neg h2] at hok
  simp only [Except.ok.injEq] at hok
  subst hok
  have hlast2 : ∀ x, s.entries.getLast? = some x → idLt x.id id = true := by
    intro x hx
    have hsl : streamLastId s = x.id := by
      simp [streamLastId, hx]
    rw [hsl] at h1 h2
    simp only [idLt, Bool.or_eq_true, Bool.and_eq_true, decide_eq_true_eq]
    omega
  refine ⟨rfl, ?_, sorted_append_last _ _ hsorted hlast2⟩
  intro e he
  cases hx : s.entries.getLast? with
  | none =>
    have hnil : s.entries = [] := by simpa using hx
    rw [hnil] at he
    simp at he
  | some x =>
    rcases sorted_le_last _ hsorted x hx e he with hlt | heq
    · exact idLt_trans _ _ _ hlt (hlast2 x hx)
    · have hxx := hlast2 x hx
      rw [← heq] at hxx
      exact hxx

/-- C1 (witness): the explicit-id ordering theorem at a concrete stream. -/
theorem xaddExplicitStrictlyIncreasesWitness :
    entriesSorted [⟨⟨1, 1⟩, []⟩] = true ∧
    xaddId ⟨[⟨⟨1, 1⟩, []⟩]⟩ (.Explicit ⟨2, 2⟩) 9 = .ok ⟨2, 2⟩ ∧
    ((⟨2, 2⟩ : StreamEntryId) = ⟨2, 2⟩ ∧
      (∀ e ∈ [(⟨⟨1, 1⟩, []⟩ : StreamEntry)], idLt e.id ⟨2, 2⟩ = true) ∧
      entriesSorted ([⟨⟨1, 1⟩, []⟩] ++ [⟨⟨2, 2⟩, []⟩]) = true) :=
  ⟨by decide, by decide,
    xaddExplicitStrictlyIncreases ⟨[⟨⟨1, 1⟩, []⟩]⟩ ⟨2, 2⟩ ⟨2, 2⟩ [] 9
      (by decide) (by decide)⟩

/-- C1 (counterexample): the claim fails for `AutoSeq`: on a stream whose
top item is `5-1`, `XADD` with id spec `3-*` *succeeds* (the code never
compares auto-sequenced ids against the last id), returns `3-0`, and
appends it after `5-1` — out of order. -/
theorem xaddAutoSeqOutOfOrder :
    (dbXadd emptyStore "s" (.Explicit ⟨5, 1⟩) [] 7).1 =
      ⟨[("s", Entry.stream ⟨[⟨⟨5, 1⟩, []⟩]⟩)], [], 0, false⟩ ∧
    (dbXadd ⟨[("s", Entry.stream ⟨[⟨⟨5, 1⟩, []⟩]⟩)], [], 0, false⟩ "s"
        (.AutoSeq 3) [] 7).2 = .ok [51, 45, 48] ∧
    (dbXadd ⟨[("s", Entry.stream ⟨[⟨⟨5, 1⟩, []⟩]⟩)], [], 0, false⟩ "s"
        (.AutoSeq 3) [] 7).1.data =
      [("s", Entry.stream ⟨[⟨⟨5, 1⟩, []⟩, ⟨⟨3, 0⟩, []⟩]⟩)] ∧
    idLt ⟨3, 0⟩ ⟨5, 1⟩ = true ∧
    entriesSorted [⟨⟨5, 1⟩, []⟩, ⟨⟨3, 0⟩, []⟩] = false := by
  refine ⟨by decide, by decide, by decide, by decide, by decide⟩

/-- C2 (counterexample): on a stream whose top item is `5-3`, the claim says
the explicit id `6-0` (greater millisecond part, any sequence) is accepted;
the code rejects it, because the `seq <= last.seq` check is applied
regardless of the millisecond comparison. `XAdd::execute` surfaces the
rejection as the fixed XADD error frame. -/
theorem xaddExplicitHigherMsRejected :
    xaddId ⟨[⟨⟨5, 3⟩, []⟩]⟩ (.Explicit ⟨6, 0⟩) 0 =
      .error "Sequence is less than the last sequence or equal to it" ∧
    (xaddExecute ⟨[("s", Entry.stream ⟨[⟨⟨5, 3⟩, []⟩]⟩)], [], 0, false⟩ "s"
        (.Explicit ⟨6, 0⟩) [] 0).2 =
      .Error (ascii
        "ERR The ID specified in XADD is equal or smaller than the target stream top item") := by
  constructor
  · rfl
  · rfl

/-- C2 (amended): an explicit XADD id `(ms, seq)` is rejected exactly when
`ms < last.ms` *or* `seq ≤ last.seq` — the sequence check is applied
regardless of whether the milliseconds are equal, so ids with a strictly
larger `ms` but a small `seq` are also refused; otherwise `(ms, seq)` is
stored as given. Every db-level rejection reaches the client as the fixed
error `ERR The ID specified in XADD is equal or smaller than the target
stream top item`. (`0-0` never reaches the db: `XAdd::parse_id` rejects it
earlier with `ERR The ID specified in XADD must be greater than 0-0` — see
`xaddParseId` below.) -/
theorem xaddExplicitRejectIff (s : RStream) (ms seq now : Nat) :
    ((xaddId s (.Explicit ⟨ms, seq⟩) now).isOk = false ↔
      (ms < (streamLastId s).ms ∨ seq ≤ (streamLastId s).seq)) ∧
    (¬ ms < (streamLastId s).ms → ¬ seq ≤ (streamLastId s).seq →
      xaddId s (.Explicit ⟨ms, seq⟩) now = .ok ⟨ms, seq⟩) ∧
    (∀ st key kv e, (dbXadd st key (.Explicit ⟨ms, seq⟩) kv now).2 = .error e →
      (xaddExecute st key (.Explicit ⟨ms, seq⟩) kv now).2 =
        .Error (ascii
          "ERR The ID specified in XADD is equal or smaller than the target stream top item")) := by
  refine ⟨?_, ?_, ?_⟩
  · simp only [xaddId]
    by_cases h1 : ms < (streamLastId s).ms
    · simp [h1, Except.isOk, Except.toBool]
    by_cases h2 : seq ≤ (streamLastId s).seq
    · simp [h1, h2, Except.isOk, Except.toBool]
    · simp [h1, h2, Except.isOk, Except.toBool]
  · intro h1 h2
    simp only [xaddId]
    rw [if_neg h1, if_neg h2]
  · intro st key kv e herr
    simp only [xaddExecute]
    cases hx : dbXadd st key (.Explicit ⟨ms, seq⟩) kv now with
    | mk st2 res =>
      rw [hx] at herr
      simp only at herr
      rw [herr]

/-- C2 (witness): the reject-iff characterisation at a stream with top item
`5-3`: `7-4` is accepted, `6-0` is rejected. -/
theorem xaddExplicitRejectIffWitness :
    xaddId ⟨[⟨⟨5, 3⟩, []⟩]⟩ (.Explicit ⟨7, 4⟩) 0 = .ok ⟨7, 4⟩ ∧
    (xaddId ⟨[⟨⟨5, 3⟩, []⟩]⟩ (.Explicit ⟨6, 0⟩) 0).isOk = false :=
  ⟨(xaddExplicitRejectIff ⟨[⟨⟨5, 3⟩, []⟩]⟩ 7 4 0).2.1 (by decide) (by decide),
    ((xaddExplicitRejectIff ⟨[⟨⟨5, 3⟩, []⟩]⟩ 6 0 0).1).mpr (by decide)⟩

/-! ## Stream id text parsing (`XAdd::parse_id`, `XRange::parse_id`,
`XRead::parse_id`; claims C2, C8) -/

/-- Rust unsigned-integer `str::parse` with an explicit bound (`u64`,
`u128`, `usize`): optional leading `+`, at least one digit, all digits,
value below the bound. -/
def parseUInt (bound : Nat) (bs : Bytes) : Option Nat :=
  match stripPlus bs with
  | [] => none
  | b :: rest =>
      match digitsVal 0 (b :: rest) with
      | some v => if v < bound then some v else none
      | none => none

/-- Accumulator for `splitDash`. -/
def splitDashAux (cur : Bytes) : Bytes → List Bytes
  | [] => [cur.reverse]
  | b :: rest =>
      if b = 45 then cur.reverse :: splitDashAux [] rest
      else splitDashAux (b :: cur) rest

/-- Rust `str::split('-')` collected to a vector: the (always non-empty)
list of chunks between `-` bytes. -/
def splitDash (bs : Bytes) : List Bytes := splitDashAux [] bs

theorem splitDashAux_no_dash (bs : Bytes) (h : ∀ b ∈ bs, b ≠ 45) :
    ∀ cur, splitDashAux cur bs = [cur.reverse ++ bs] := by
  induction bs with
  | nil => intro cur; simp [splitDashAux]
  | cons b rest ih =>
    intro cur
    have hb : b ≠ 45 := h b (by simp)
    simp only [splitDashAux, hb, if_false]
    rw [ih (fun x hx => h x (by simp [hx])) (b :: cur)]
    simp

theorem splitDash_no_dash (bs : Bytes) (h : ∀ b ∈ bs, b ≠ 45) :
    splitDash bs = [bs] := by
  simpa [splitDash] using splitDashAux_no_dash bs h []

/-- Model of `XAdd::parse_id` (`src/command/xadd.rs`). `none` models the
panic: when the id text contains no `-`, `parts[1]` indexes past the end of
the split vector. The number-parse failure messages stand in for the
`ParseIntError` display the `?` operator converts. -/
def xaddParseId (id : Bytes) : Option (Except Bytes XAddId) :=
  if id = [42] then some (.ok .Auto)
  else
    match splitDash id with
    | [] => none
    | [p0] =>
        match parseUInt (2 ^ 128) p0 with
        | none => some (.error (ascii "invalid digit found in string"))
        | some _ => none
    | p0 :: p1 :: _ =>
        match parseUInt (2 ^ 128) p0 with
        | none => some (.error (ascii "invalid digit found in string"))
        | some ts =>
          if p1 = [42] then
            match parseUInt (2 ^ 128) p0 with
            | none => some (.error (ascii "invalid digit found in string"))
            | some ts2 => some (.ok (.AutoSeq ts2))
          else
            match parseUInt (2 ^ 64) p1 with
            | none => some (.error (ascii "invalid digit found in string"))
            | some sq =>
              if ts = 0 ∧ sq = 0 then
                some (.error (ascii "ERR The ID specified in XADD must be greater than 0-0"))
              else some (.ok (.Explicit ⟨ts, sq⟩))

/-- Model of `XRange::parse_id` (`src/command/xrange.rs`): split on `-`,
parse `u128` then `usize`; `none` models the `split_id[1]` panic when the
text contains no `-`. -/
def xrangeParseId (id : Bytes) : Option (Except Bytes StreamEntryId) :=
  match splitDash id with
  | [] => none
  | [p0] =>
      match parseUInt (2 ^ 128) p0 with
      | none => some (.error (ascii "invalid digit found in string"))
      | some _ => none
  | p0 :: p1 :: _ =>
      match parseUInt (2 ^ 128) p0 with
      | none => some (.error (ascii "invalid digit found in string"))
      | some ts =>
        match parseUInt (2 ^ 64) p1 with
        | none => some (.error (ascii "invalid digit found in string"))
        | some sq => some (.ok ⟨ts, sq⟩)

/-- Model of `XRead::parse_id` (`src/command/xread.rs`) — its body is
identical to `XRange::parse_id`. -/
def xreadParseId (id : Bytes) : Option (Except Bytes StreamEntryId) :=
  xrangeParseId id

/-- C2 (part of the amended claim): the explicit id `0-0` is refused at
parse time with its own error text, not the top-item error. -/
theorem xaddParseIdZeroZero :
    xaddParseId (ascii "0-0") =
      some (.error (ascii "ERR The ID specified in XADD must be greater than 0-0")) := by
  rfl

/-- C8: for every id argument that contains no `-` separator, is not `*`,
and whose text parses as a number (for example `5`), the stream-id parsers
of XADD, XRANGE and XREAD all panic by indexing the second element of the
split vector instead of returning a protocol error. -/
theorem parseIdNoSeparatorPanics (id : Bytes) (h45 : ∀ b ∈ id, b ≠ 45)
    (hstar : id ≠ [42]) (ts : Nat) (hp : parseUInt (2 ^ 128) id = some ts) :
    xaddParseId id = none ∧ xrangeParseId id = none ∧ xreadParseId id = none := by
  have hsplit := splitDash_no_dash id h45
  refine ⟨?_, ?_, ?_⟩ <;>
    simp only [xaddParseId, xrangeParseId, xreadParseId, hstar, if_false, hsplit, hp]

/-- C8 (witness): the id text `5`. -/
theorem parseIdNoSeparatorPanicsWitness :
    (∀ b ∈ (ascii "5"), b ≠ 45) ∧ (ascii "5") ≠ [42] ∧
    parseUInt (2 ^ 128) (ascii "5") = some 5 ∧
    (xaddParseId (ascii "5") = none ∧ xrangeParseId (ascii "5") = none ∧
      xreadParseId (ascii "5") = none) :=
  ⟨by decide, by decide, by decide,
    parseIdNoSeparatorPanics (ascii "5") (by decide) (by decide) 5 (by decide)⟩

/-! ## Blocking XREAD store mutation (claim C9) -/

theorem hmGet_insert_self (k : String) (v : Entry) (l : List (String × Entry)) :
    hmGet k (hmInsert k v l).1 = some v := by
  induction l with
  | nil => simp [hmInsert, hmGet]
  | cons p rest ih =>
    by_cases hk : p.1 = k
    · simp [hmInsert, hmGet, hk]
    · simp [hmInsert, hmGet, hk, ih]

theorem mem_keys_insert (k : String) (v : Entry) (l : List (String × Entry)) :
    k ∈ (hmInsert k v l).1.map Prod.fst := by
  induction l with
  | nil => simp [hmInsert]
  | cons p rest ih =>
    by_cases hk : p.1 = k
    · simp [hmInsert, hk]
    · simp only [hmInsert, hk, if_false, List.map_cons, List.mem_cons]
      exact Or.inr ih

/-- C9: a blocking XREAD (block option present) on a key holding no entry
creates an empty stream at that key as a side effect of subscribing: after
the call, TYPE on the key answers `stream` (it answered `none` before) and
KEYS includes the key. -/
theorem xreadBlockCreatesStream (st : Store) (k : String)
    (ids : List StreamEntryId) (block : Nat)
    (habs : hmGet k st.data = none) :
    hmGet k (dbXread st [k] ids (some block)).1.data =
      some (.stream ⟨[]⟩) ∧
    getType (dbXread st [k] ids (some block)).1 k = "stream" ∧
    k ∈ dbKeys (dbXread st [k] ids (some block)).1 ∧
    getType st k = "none" := by
  have htouch : (dbXread st [k] ids (some block)).1.data =
      (hmInsert k (Entry.stream ⟨[]⟩) st.data).1 := by
    simp [dbXread, xreadTouch, habs]
  refine ⟨?_, ?_, ?_, ?_⟩
  · rw [htouch]
    exact hmGet_insert_self k _ st.data
  · rw [getType, htouch, hmGet_insert_self k _ st.data]
  · rw [dbKeys, htouch]
    exact mem_keys_insert k _ st.data
  · rw [getType, habs]

/-- C9 (witness): blocking XREAD of key `k` on the empty store. -/
theorem xreadBlockCreatesStreamWitness :
    hmGet "k" emptyStore.data = none ∧
    (hmGet "k" (dbXread emptyStore ["k"] [] (some 0)).1.data =
        some (.stream ⟨[]⟩) ∧
      getType (dbXread emptyStore ["k"] [] (some 0)).1 "k" = "stream" ∧
      "k" ∈ dbKeys (dbXread emptyStore ["k"] [] (some 0)).1 ∧
      getType emptyStore "k" = "none") :=
  ⟨rfl, xreadBlockCreatesStream emptyStore "k" [] 0 rfl⟩

/-! ## Client-frame command dispatch (`Command::from_frame`, claim C5) -/

/-- The commands `Command::from_frame` can route to (one per match arm of
`src/command/mod.rs`). -/
inductive CmdKind where
  | echo | ping | set | get | keys | info | replconf | psync | wait
  | config | getType | xadd
deriving DecidableEq, Repr

/-- ASCII uppercasing of a byte string; agrees with Rust's
`str::to_uppercase` on ASCII text (the only text the dispatcher compares
against). -/
def upperAscii (bs : Bytes) : Bytes :=
  bs.map fun b => if 97 ≤ b ∧ b ≤ 122 then b - 32 else b

/-- The uppercased names `Command::from_frame` recognizes, in match-arm
order. `XRANGE` and `XREAD` are absent: `src/command/mod.rs` has no arms
(and no module declarations) for them. -/
def recognizedNames : List Bytes :=
  [ascii "ECHO", ascii "PING", ascii "SET", ascii "GET", ascii "KEYS",
   ascii "INFO", ascii "REPLCONF", ascii "PSYNC", ascii "WAIT",
   ascii "CONFIG", ascii "TYPE", ascii "XADD"]

/-- The match of `Command::from_frame` on the uppercased command name. -/
def commandOfName (upper : Bytes) : Option CmdKind :=
  if upper = ascii "ECHO" then some .echo
  else if upper = ascii "PING" then some .ping
  else if upper = ascii "SET" then some .set
  else if upper = ascii "GET" then some .get
  else if upper = ascii "KEYS" then some .keys
  else if upper = ascii "INFO" then some .info
  else if upper = ascii "REPLCONF" then some .replconf
  else if upper = ascii "PSYNC" then some .psync
  else if upper = ascii "WAIT" then some .wait
  else if upper = ascii "CONFIG" then some .config
  else if upper = ascii "TYPE" then some .getType
  else if upper = ascii "XADD" then some .xadd
  else none

/-- Rust `{:?}` quoting of a command-name string (as in the unknown-command
error message). -/
def quoteDebug (s : Bytes) : Bytes := 34 :: s ++ [34]

/-- Name lookup of `Command::from_frame`: uppercase, match, or produce the
`Protocol error: unknown command "NAME"` message. -/
def routeName (s : Bytes) : Except Bytes CmdKind :=
  match commandOfName (upperAscii s) with
  | some k => .ok k
  | none =>
      .error (ascii "Protocol error: unknown command " ++ quoteDebug (upperAscii s))

/-- Model of the dispatch part of `Command::from_frame`
(`src/command/mod.rs`): `Parse::new` demands an array, `next_string` reads
the leading simple/bulk string, and the uppercased name selects the
command's parser. Error messages for the non-command-name failures are
carried without the Rust `{:?}` suffix of the offending frame, which no
claim inspects. -/
def fromFrameRoute (f : Frame) : Except Bytes CmdKind :=
  match f with
  | .Arr [] => .error (ascii "Protocol error: unexpected end of stream")
  | .Arr (first :: _) =>
      match first with
      | .Simple s => routeName s
      | .Bulk s =>
          if utf8Valid s then routeName s
          else .error (ascii "Protocol error: invalid string")
      | _ => .error (ascii "Protocol error: expected simple or bulk string frame")
  | _ => .error (ascii "Protocol error: expected frame to be an array")

/-- C5 (counterexample): `XRANGE` and `XREAD` are not dispatched — they fall
through to the unknown-command arm — and the unknown-command reply is
`Protocol error: unknown command "<NAME>"`, not `ERR unknown command`. -/
theorem xrangeXreadNotRecognized :
    fromFrameRoute (.Arr [.Bulk (ascii "XRANGE"), .Bulk (ascii "s"),
        .Bulk (ascii "-"), .Bulk (ascii "+")]) =
      .error (ascii "Protocol error: unknown command " ++ quoteDebug (ascii "XRANGE")) ∧
    fromFrameRoute (.Arr [.Bulk (ascii "XREAD"), .Bulk (ascii "STREAMS")]) =
      .error (ascii "Protocol error: unknown command " ++ quoteDebug (ascii "XREAD")) ∧
    ascii "Protocol error: unknown command " ++ quoteDebug (ascii "XRANGE") ≠
      ascii "ERR unknown command" := by
  refine ⟨rfl, rfl, by decide⟩

/-- C5 (amended): the dispatcher recognizes exactly the twelve names
`ECHO PING SET GET KEYS INFO REPLCONF PSYNC WAIT CONFIG TYPE XADD`
(ASCII-case-insensitively): a leading bulk name whose uppercase form is
recognized routes to that command's parser, and every other name produces
the error `Protocol error: unknown command \"<UPPERCASED NAME>\"`.
`XRANGE` and `XREAD` are not in the recognized set. -/
theorem dispatchRecognizedSpec (name : Bytes) (rest : List Frame)
    (hv : utf8Valid name = true) :
    ((upperAscii name ∈ recognizedNames) ↔
      ∃ k, commandOfName (upperAscii name) = some k) ∧
    (∀ k, commandOfName (upperAscii name) = some k →
      fromFrameRoute (.Arr (.Bulk name :: rest)) = .ok k) ∧
    (commandOfName (upperAscii name) = none →
      fromFrameRoute (.Arr (.Bulk name :: rest)) =
        .error (ascii "Protocol error: unknown command " ++
          quoteDebug (upperAscii name))) ∧
    ascii "XRANGE" ∉ recognizedNames ∧ ascii "XREAD" ∉ recognizedNames := by
  refine ⟨?_, ?_, ?_, by decide, by decide⟩
  · constructor
    · intro hmem
      simp only [recognizedNames, List.mem_cons, List.not_mem_nil,
        or_false] at hmem
      rcases hmem with h | h | h | h | h | h | h | h | h | h | h | h
      · exact ⟨CmdKind.echo, by rw [h]; rfl⟩
      · exact ⟨CmdKind.ping, by rw [h]; rfl⟩
      · exact ⟨CmdKind.set, by rw [h]; rfl⟩
      · exact ⟨CmdKind.get, by rw [h]; rfl⟩
      · exact ⟨CmdKind.keys, by rw [h]; rfl⟩
      · exact ⟨CmdKind.info, by rw [h]; rfl⟩
      · exact ⟨CmdKind.replconf, by rw [h]; rfl⟩
      · exact ⟨CmdKind.psync, by rw [h]; rfl⟩
      · exact ⟨CmdKind.wait, by rw [h]; rfl⟩
      · exact ⟨CmdKind.config, by rw [h]; rfl⟩
      · exact ⟨CmdKind.getType, by rw [h]; rfl⟩
      · exact ⟨CmdKind.xadd, by rw [h]; rfl⟩
    · rintro ⟨k, hk⟩
      by_contra hmem
      simp only [recognizedNames, List.mem_cons, List.not_mem_nil, or_false,
        not_or] at hmem
      obtain ⟨h1, h2, h3, h4, h5, h6, h7, h8, h9, h10, h11, h12⟩ := hmem
      rw [commandOfName, if_neg h1, if_neg h2, if_neg h3, if_neg h4,
        if_neg h5, if_neg h6, if_neg h7, if_neg h8, if_neg h9, if_neg h10,
        if_neg h11, if_neg h12] at hk
      exact Option.noConfusion hk
  · intro k hk
    simp only [fromFrameRoute, routeName, hv, if_true, if_pos, hk]
  · intro hk
    simp only [fromFrameRoute, routeName, hv, if_true, if_pos, hk]

/-- C5 (witness): lowercase `set` routes to SET; `xrange` is refused. -/
theorem dispatchRecognizedSpecWitness :
    utf8Valid (ascii "set") = true ∧
    fromFrameRoute (.Arr [.Bulk (ascii "set"), .Bulk (ascii "k"),
      .Bulk (ascii "v")]) = .ok CmdKind.set ∧
    fromFrameRoute (.Arr [.Bulk (ascii "xrange")]) =
      .error (ascii "Protocol error: unknown command " ++
        quoteDebug (upperAscii (ascii "xrange"))) :=
  ⟨by decide,
    (dispatchRecognizedSpec (ascii "set") [.Bulk (ascii "k"), .Bulk (ascii "v")]
      (by decide)).2.1 CmdKind.set (by decide),
    (dispatchRecognizedSpec (ascii "xrange") [] (by decide)).2.2.1 (by decide)⟩

/-! ## WAIT acknowledgement counting (`Master::count_sync_repl`, claim C4) -/

/-- The `rx.recv_timeout` loop of `Master::count_sync_repl`
(`src/info.rs`), over the sequence of `(addr, offset)` acknowledgement
messages the rendezvous channel yields before the wait gives up (list
exhaustion models `recv_timeout` returning `Err`). Each qualifying message
increments the count — the sender address is ignored — and the loop stops
as soon as the count reaches the target. -/
def ackLoop (masterOffset target : Nat) : Nat → List (Nat × Nat) → Nat
  | synced, [] => synced
  | synced, (_, off) :: rest =>
      let synced2 := if masterOffset ≤ off then synced + 1 else synced
      if target ≤ synced2 then synced2
      else ackLoop masterOffset target synced2 rest

/-- Model of `Master::count_sync_repl` (`src/info.rs`): clamp the target to
the replica count, answer the replica count immediately when the master
offset is zero, otherwise count qualifying acknowledgement messages. -/
def countSyncRepl (masterOffset targetCount replicasCount : Nat)
    (acks : List (Nat × Nat)) : Nat :=
  let target := min targetCount replicasCount
  if masterOffset = 0 then replicasCount
  else ackLoop masterOffset target 0 acks

theorem ackLoop_le_filter (mo t : Nat) (l : List (Nat × Nat)) :
    ∀ s, ackLoop mo t s l ≤ s + (l.filter fun a => mo ≤ a.2).length := by
  induction l with
  | nil => intro s; simp [ackLoop]
  | cons a rest ih =>
    intro s
    obtain ⟨addr, off⟩ := a
    have ih1 := ih (s + 1)
    have ih2 := ih s
    simp only [ackLoop]
    by_cases hq : mo ≤ off
    · simp only [hq, if_true]
      have hf : (((addr, off) :: rest).filter fun a => (mo ≤ a.2 : Bool)) =
          (addr, off) :: (rest.filter fun a => (mo ≤ a.2 : Bool)) := by
        simp [List.filter_cons, hq]
      rw [hf]
      by_cases hb : t ≤ s + 1
      · simp only [hb, if_true, List.length_cons]
        omega
      · simp only [hb, if_false, List.length_cons]
        omega
    · simp only [hq, if_false]
      have hf : (((addr, off) :: rest).filter fun a => (mo ≤ a.2 : Bool)) =
          rest.filter fun a => (mo ≤ a.2 : Bool) := by
        simp [List.filter_cons, hq]
      rw [hf]
      by_cases hb : t ≤ s
      · simp only [hb, if_true]
        omega
      · simp only [hb, if_false]
        omega

theorem ackLoop_le_target (mo t : Nat) (l : List (Nat × Nat)) :
    ∀ s, s < t → ackLoop mo t s l ≤ t := by
  induction l with
  | nil => intro s hs; simp [ackLoop]; omega
  | cons a rest ih =>
    intro s hs
    obtain ⟨addr, off⟩ := a
    simp only [ackLoop]
    by_cases hq : mo ≤ off
    · simp only [hq, if_true]
      by_cases hb : t ≤ s + 1
      · simp only [hb, if_true]
        omega
      · simp only [hb, if_false]
        exact ih (s + 1) (by omega)
    · simp only [hq, if_false]
      by_cases hb : t ≤ s
      · simp only [hb, if_true]
        omega
      · simp only [hb, if_false]
        exact ih s (by omega)

/-- C4 (amended): `WAIT N timeout` returns the total replica count
immediately when the master offset is zero; otherwise it returns at most
the number of qualifying acknowledgement *messages* received in time (the
same replica may be counted more than once — the sender address is
ignored), and at most `min N replicas` whenever that clamp is positive. -/
theorem countSyncReplSpec (mo N R : Nat) (acks : List (Nat × Nat)) :
    (mo = 0 → countSyncRepl mo N R acks = R) ∧
    (mo ≠ 0 → countSyncRepl mo N R acks ≤
      (acks.filter fun a => mo ≤ a.2).length) ∧
    (mo ≠ 0 → 1 ≤ min N R → countSyncRepl mo N R acks ≤ min N R) := by
  refine ⟨?_, ?_, ?_⟩
  · intro h; simp [countSyncRepl, h]
  · intro h
    simp only [countSyncRepl, h, if_false]
    simpa using ackLoop_le_filter mo (min N R) acks 0
  · intro h h1
    simp only [countSyncRepl, h, if_false]
    exact ackLoop_le_target mo (min N R) acks 0 (by omega)

/-- C4 (counterexample): with master offset 10, `WAIT 2` over two replicas
returns 2 after two qualifying acks *from the same replica address* — only
one distinct replica reported, contradicting the claim's "N distinct
replicas". -/
theorem countSyncReplDuplicateAcks :
    countSyncRepl 10 2 2 [(7, 10), (7, 10)] = 2 ∧
    ((([(7, 10), (7, 10)] : List (Nat × Nat)).filter fun a => 10 ≤ a.2).map
        Prod.fst).dedup.length = 1 := by
  refine ⟨rfl, by decide⟩

/-- C4 (witness): the amended bounds at concrete calls. -/
theorem countSyncReplSpecWitness :
    countSyncRepl 0 2 3 [] = 3 ∧
    countSyncRepl 5 1 2 [(0, 9), (1, 9)] ≤ 1 := by
  constructor
  · exact (countSyncReplSpec 0 2 3 []).1 rfl
  · have h := (countSyncReplSpec 5 1 2 [(0, 9), (1, 9)]).2.2 (by omega) (by simp)
    simpa using h

/-! ## SET parsing, canonical re-encoding, and execute's byte length
(`src/parse.rs`, `src/command/set.rs`, `Command::execute`; claim C7) -/

/-- The error type of the argument parser (`parse.rs` `enum Error`):
`EndOfStream` or another message. -/
inductive ParseErr where
  | endOfStream
  | other (msg : Bytes)
deriving DecidableEq, Repr

/-- `Parse::next_string` over the remaining argument frames: accepts a
simple or (UTF-8-valid) bulk string. -/
def nextString : List Frame → Except ParseErr (Bytes × List Frame)
  | [] => .error .endOfStream
  | .Simple s :: rest => .ok (s, rest)
  | .Bulk s :: rest =>
      if utf8Valid s then .ok (s, rest)
      else .error (.other (ascii "Protocol error: invalid string"))
  | _ :: _ =>
      .error (.other (ascii "Protocol error: expected simple or bulk string frame"))

/-- `Parse::next_bytes`: binary-safe argument read. -/
def nextBytes : List Frame → Except ParseErr (Bytes × List Frame)
  | [] => .error .endOfStream
  | .Simple s :: rest => .ok (s, rest)
  | .Bulk s :: rest => .ok (s, rest)
  | _ :: _ =>
      .error (.other (ascii "Protocol error: expected simple or bulk string frame"))

/-- `Parse::next_uint`: an integer frame, or a simple/bulk string parsed as
`u64`. -/
def nextUint : List Frame → Except ParseErr (Nat × List Frame)
  | [] => .error .endOfStream
  | .Integer n :: rest => .ok (n, rest)
  | .Simple s :: rest =>
      match parseUInt (2 ^ 64) s with
      | some v => .ok (v, rest)
      | none => .error (.other (ascii "Protocol error: expected integer frame"))
  | .Bulk s :: rest =>
      if utf8Valid s then
        match parseUInt (2 ^ 64) s with
        | some v => .ok (v, rest)
        | none => .error (.other (ascii "Protocol error: expected integer frame"))
      else .error (.other (ascii "Protocol error: expected integer frame"))
  | _ :: _ =>
      .error (.other (ascii "Protocol error: expected integer frame"))

/-- A parsed SET command (`struct Set`): key, value, optional expiry
`Duration` modelled in milliseconds (`EX s` → `s * 1000`, `PX m` → `m`). -/
structure SetCmd where
  key : Bytes
  value : Bytes
  expire : Option Nat
deriving DecidableEq, Repr

/-- `Set::parse_frames` (`src/command/set.rs`): key, value, then an
optional `EX seconds` / `PX millis` suffix (uppercased comparison);
`EndOfStream` after the value means no expiry. Also returns the unconsumed
frames, for `Parse::finish`. -/
def setParseFrames (args : List Frame) :
    Except ParseErr (SetCmd × List Frame) :=
  match nextString args with
  | .error e => .error e
  | .ok (key, rest1) =>
    match nextBytes rest1 with
    | .error e => .error e
    | .ok (value, rest2) =>
      match nextString rest2 with
      | .ok (opt, rest3) =>
          if upperAscii opt = ascii "EX" then
            match nextUint rest3 with
            | .error e => .error e
            | .ok (sec, rest4) => .ok (⟨key, value, some (sec * 1000)⟩, rest4)
          else if upperAscii opt = ascii "PX" then
            match nextUint rest3 with
            | .error e => .error e
            | .ok (ms, rest4) => .ok (⟨key, value, some ms⟩, rest4)
          else .error (.other (ascii "Protocol error: expected EX or PX for expiration"))
      | .error .endOfStream => .ok (⟨key, value, none⟩, rest2)
      | .error e => .error e

/-- `Set::to_frame` (`src/command/set.rs`): the canonical re-encoding —
bulk strings `SET key value`, and when an expiry is present always
`EX <as_secs>` (the stored duration's whole seconds), even if the request
used `PX`. -/
def setToFrame (c : SetCmd) : Frame :=
  match c.expire with
  | none => .Arr [.Bulk (ascii "SET"), .Bulk c.key, .Bulk c.value]
  | some d =>
      .Arr [.Bulk (ascii "SET"), .Bulk c.key, .Bulk c.value,
        .Bulk (ascii "EX"), .Bulk (natDigits (d / 1000))]

/-- The SET path of `Command::from_frame`: an array whose leading name
uppercases to `SET`, `Set::parse_frames`, then `Parse::finish` (which
demands an exhausted cursor). -/
def setFromFrame (f : Frame) : Except ParseErr SetCmd :=
  match f with
  | .Arr [] => .error .endOfStream
  | .Arr (first :: args) =>
      match first with
      | .Bulk nm =>
          if utf8Valid nm then
            if upperAscii nm = ascii "SET" then
              match setParseFrames args with
              | .error e => .error e
              | .ok (cmd, leftover) =>
                  match leftover with
                  | [] => .ok cmd
                  | _ :: _ => .error (.other (ascii "Protocol error: end of frame expecred"))
            else .error (.other (ascii "Protocol error: unknown command"))
          else .error (.other (ascii "Protocol error: invalid string"))
      | .Simple nm =>
          if upperAscii nm = ascii "SET" then
            match setParseFrames args with
            | .error e => .error e
            | .ok (cmd, leftover) =>
                match leftover with
                | [] => .ok cmd
                | _ :: _ => .error (.other (ascii "Protocol error: end of frame expecred"))
          else .error (.other (ascii "Protocol error: unknown command"))
      | _ => .error (.other (ascii "Protocol error: expected simple or bulk string frame"))
  | _ => .error (.other (ascii "Protocol error: expected frame to be an array"))

/-- The second component `Command::execute` returns for a SET request
(`src/command/mod.rs`): `command.to_frame().encode().bytes().len()` on
success (with `none` for the panic when the value is not UTF-8), `0` when
parsing fails. -/
def setExecuteLen (f : Frame) : Option Nat :=
  match setFromFrame f with
  | .ok cmd => (Frame.encode (setToFrame cmd)).map List.length
  | .error _ => some 0

theorem parseUInt_natDigits (bound n : Nat) (h : n < bound) :
    parseUInt bound (natDigits n) = some n := by
  have hne := natDigits_ne_nil n
  have hdig := natDigits_mem_digit n
  have hval := digitsVal_natDigits n 0
  cases hd : natDigits n with
  | nil => exact absurd hd hne
  | cons b rest =>
    rw [hd] at hval hdig
    have hb := hdig b (by simp)
    have hb43 : ¬ b = 43 := by omega
    simp only [Nat.zero_mul, Nat.zero_add] at hval
    simp only [parseUInt, stripPlus, hb43, if_false, hval]
    rw [if_pos h]

/-- C7 (amended): for a parsed SET command, `execute`'s second component is
the encoded length of the command's canonical re-encoding
(`to_frame().encode()`), not of the request as received. The two coincide
when the request is already canonical — bulk strings, `EX`-seconds expiry —
because `to_frame` then reproduces the request frame exactly. -/
theorem setExecuteLenCanonical (k v : Bytes) (sec : Nat)
    (hk : utf8Valid k = true) (hv : utf8Valid v = true) (hs : sec < 2 ^ 64) :
    setFromFrame (.Arr [.Bulk (ascii "SET"), .Bulk k, .Bulk v]) =
      .ok ⟨k, v, none⟩ ∧
    setToFrame ⟨k, v, none⟩ = .Arr [.Bulk (ascii "SET"), .Bulk k, .Bulk v] ∧
    setExecuteLen (.Arr [.Bulk (ascii "SET"), .Bulk k, .Bulk v]) =
      (Frame.encode (.Arr [.Bulk (ascii "SET"), .Bulk k, .Bulk v])).map
        List.length ∧
    setFromFrame (.Arr [.Bulk (ascii "SET"), .Bulk k, .Bulk v,
        .Bulk (ascii "EX"), .Bulk (natDigits sec)]) =
      .ok ⟨k, v, some (sec * 1000)⟩ ∧
    setToFrame ⟨k, v, some (sec * 1000)⟩ =
      .Arr [.Bulk (ascii "SET"), .Bulk k, .Bulk v, .Bulk (ascii "EX"),
        .Bulk (natDigits sec)] ∧
    setExecuteLen (.Arr [.Bulk (ascii "SET"), .Bulk k, .Bulk v,
        .Bulk (ascii "EX"), .Bulk (natDigits sec)]) =
      (Frame.encode (.Arr [.Bulk (ascii "SET"), .Bulk k, .Bulk v,
        .Bulk (ascii "EX"), .Bulk (natDigits sec)])).map List.length := by
  have hdig := natDigits_mem_digit sec
  have hdu : utf8Valid (natDigits sec) = true :=
    utf8Valid_of_ascii _ fun b hb => by have := hdig b hb; omega
  have hSET : utf8Valid (ascii "SET") = true := by decide
  have hupSET : upperAscii (ascii "SET") = ascii "SET" := by decide
  have hEX : utf8Valid (ascii "EX") = true := by decide
  have hupEX : upperAscii (ascii "EX") = ascii "EX" := by decide
  have hparse1 : setFromFrame (.Arr [.Bulk (ascii "SET"), .Bulk k, .Bulk v]) =
      .ok ⟨k, v, none⟩ := by
    simp [setFromFrame, setParseFrames, nextString, nextBytes, hk, hv, hSET,
      hupSET]
  have hto1 : setToFrame ⟨k, v, none⟩ =
      .Arr [.Bulk (ascii "SET"), .Bulk k, .Bulk v] := rfl
  have hparse2 : setFromFrame (.Arr [.Bulk (ascii "SET"), .Bulk k, .Bulk v,
      .Bulk (ascii "EX"), .Bulk (natDigits sec)]) = .ok ⟨k, v, some (sec * 1000)⟩ := by
    have hpu : parseUInt 18446744073709551616 (natDigits sec) = some sec := by
      have h64 : (18446744073709551616 : Nat) = 2 ^ 64 := by norm_num
      rw [h64]
      exact parseUInt_natDigits _ _ hs
    simp [setFromFrame, setParseFrames, nextString, nextBytes, nextUint, hk, hv,
      hdu, hSET, hupSET, hEX, hupEX, hpu]
  have hto2 : setToFrame ⟨k, v, some (sec * 1000)⟩ =
      .Arr [.Bulk (ascii "SET"), .Bulk k, .Bulk v, .Bulk (ascii "EX"),
        .Bulk (natDigits sec)] := by
    simp [setToFrame, Nat.mul_div_cancel]
  refine ⟨hparse1, hto1, ?_, hparse2, hto2, ?_⟩
  · simp only [setExecuteLen, hparse1, hto1]
  · simp only [setExecuteLen, hparse2, hto2]

/-- C7 (counterexample): a SET sent with `PX 100` parses to a 100 ms
expiry, but `to_frame` re-encodes it as `EX 0` (`as_secs()` of 100 ms), so
`execute`'s second component is 46 — not the 48 bytes of the request as it
was received. -/
theorem setExecuteLenPxMismatch :
    setFromFrame (.Arr [.Bulk (ascii "SET"), .Bulk (ascii "foo"),
        .Bulk (ascii "bar"), .Bulk (ascii "PX"), .Bulk (ascii "100")]) =
      .ok ⟨ascii "foo", ascii "bar", some 100⟩ ∧
    setToFrame ⟨ascii "foo", ascii "bar", some 100⟩ =
      .Arr [.Bulk (ascii "SET"), .Bulk (ascii "foo"), .Bulk (ascii "bar"),
        .Bulk (ascii "EX"), .Bulk (natDigits 0)] ∧
    setExecuteLen (.Arr [.Bulk (ascii "SET"), .Bulk (ascii "foo"),
        .Bulk (ascii "bar"), .Bulk (ascii "PX"), .Bulk (ascii "100")]) =
      some 46 ∧
    (Frame.encode (.Arr [.Bulk (ascii "SET"), .Bulk (ascii "foo"),
        .Bulk (ascii "bar"), .Bulk (ascii "PX"),
        .Bulk (ascii "100")])).map List.length = some 48 := by
  refine ⟨rfl, rfl, by decide, by decide⟩

/-- C7 (witness): the canonical-coincidence theorem at concrete inputs. -/
theorem setExecuteLenCanonicalWitness :
    utf8Valid (ascii "foo") = true ∧ (3 : Nat) < 2 ^ 64 ∧
    setFromFrame (.Arr [.Bulk (ascii "SET"), .Bulk (ascii "foo"),
        .Bulk (ascii "bar"), .Bulk (ascii "EX"), .Bulk (natDigits 3)]) =
      .ok ⟨ascii "foo", ascii "bar", some 3000⟩ := by
  refine ⟨by decide, by decide, ?_⟩
  have h := (setExecuteLenCanonical (ascii "foo") (ascii "bar") 3
    (by decide) (by decide) (by decide)).2.2.2.1
  simpa using h

/-! ## Expiry-index invariant (claim C6) -/

/-- The keys of the data map are distinct (a `HashMap` guarantee). -/
def keysNodup (l : List (String × Entry)) : Prop := (l.map Prod.fst).Nodup

/-- The expiry-tiebreaker ids of two entries differ when both are strings. -/
def idsDistinct : Entry → Entry → Prop
  | .str a, .str b => a.id ≠ b.id
  | _, _ => True

instance : ∀ a b, Decidable (idsDistinct a b) := fun a b => by
  cases a <;> cases b <;> simp [idsDistinct] <;> infer_instance

/-- Distinct keys hold entries with distinct string ids (each id is handed
out once by the fresh counter). -/
def idsUniq (data : List (String × Entry)) : Prop :=
  ∀ p ∈ data, ∀ q ∈ data, p.1 ≠ q.1 → idsDistinct p.2 q.2

/-- A single entry's string id (if any) is below the fresh counter. -/
def entryIdLt (nid : Nat) : Entry → Prop
  | .str se => se.id < nid
  | .stream _ => True

instance : ∀ nid e, Decidable (entryIdLt nid e) := fun nid e => by
  cases e <;> simp [entryIdLt] <;> infer_instance

/-- Every string entry's id is below the fresh counter. -/
def idsBound (data : List (String × Entry)) (nid : Nat) : Prop :=
  ∀ p ∈ data, entryIdLt nid p.2

/-- Every expiry-index row's id is below the fresh counter. -/
def rowsBound (rows : List ((Nat × Nat) × String)) (nid : Nat) : Prop :=
  ∀ r ∈ rows, r.1.2 < nid

/-- The expiry index is strictly sorted by `(deadline, id)` key — the
`BTreeMap` shape; in particular row keys are unique, so a matching row is
unique. -/
def expSortedP (rows : List ((Nat × Nat) × String)) : Prop :=
  rows.Pairwise fun a b => keyLt a.1 b.1 = true

/-- One entry's expiry row (if it is an expiring string) is present. -/
def rowOk (rows : List ((Nat × Nat) × String)) : String × Entry → Prop
  | (k, .str se) =>
      match se.expiresAt with
      | some t => ((t, se.id), k) ∈ rows
      | none => True
  | (_, .stream _) => True

instance : ∀ rows p, Decidable (rowOk rows p) := fun rows p => by
  obtain ⟨k, e⟩ := p
  cases e with
  | str se =>
    obtain ⟨i, val, ex⟩ := se
    cases ex with
    | none => simp only [rowOk]; infer_instance
    | some t => simp only [rowOk]; infer_instance
  | stream s => simp only [rowOk]; infer_instance

/-- Every string entry carrying a deadline has its `(deadline, id) → key`
row in the expiry index. -/
def rowsComplete (data : List (String × Entry))
    (rows : List ((Nat × Nat) × String)) : Prop :=
  ∀ p ∈ data, rowOk rows p

/-- The C6 invariant over the whole store. -/
def storeInv (st : Store) : Prop :=
  keysNodup st.data ∧ idsUniq st.data ∧ idsBound st.data st.nextId ∧
  rowsBound st.expires st.nextId ∧ expSortedP st.expires ∧
  rowsComplete st.data st.expires

instance (st : Store) : Decidable (storeInv st) := by
  unfold storeInv keysNodup idsUniq idsBound rowsBound expSortedP rowsComplete
  infer_instance

theorem hmInsert_snd (k : String) (v : Entry) (l : List (String × Entry)) :
    (hmInsert k v l).2 = hmGet k l := by
  induction l with
  | nil => rfl
  | cons p rest ih =>
    by_cases hk : p.1 = k <;> simp [hmInsert, hmGet, hk, ih]

theorem hmGet_insert_other (k k2 : String) (v : Entry)
    (l : List (String × Entry)) (h : k2 ≠ k) :
    hmGet k2 (hmInsert k v l).1 = hmGet k2 l := by
  have hne : ¬ k = k2 := fun hc => h hc.symm
  induction l with
  | nil => simp [hmInsert, hmGet, hne]
  | cons p rest ih =>
    obtain ⟨q1, q2⟩ := p
    by_cases hk : q1 = k
    · simp [hmInsert, hmGet, hk, hne]
    · by_cases hk2 : q1 = k2 <;> simp [hmInsert, hmGet, hk, hk2, ih, h]

theorem hmGet_none_keys (k : String) (l : List (String × Entry)) :
    hmGet k l = none ↔ k ∉ l.map Prod.fst := by
  induction l with
  | nil => simp [hmGet]
  | cons p rest ih =>
    by_cases hk : p.1 = k
    · simp [hmGet, hk]
    · have hkk : ¬ k = p.1 := fun hc => hk hc.symm
      simp [hmGet, hk, ih, hkk]

theorem keysNodup_hmInsert (k : String) (v : Entry)
    (l : List (String × Entry)) (h : keysNodup l) :
    keysNodup (hmInsert k v l).1 := by
  induction l with
  | nil => simp [hmInsert, keysNodup]
  | cons p rest ih =>
    simp only [keysNodup, List.map_cons, List.nodup_cons] at h
    by_cases hk : p.1 = k
    · simp only [hmInsert, hk, if_true, if_pos]
      simp only [keysNodup, List.map_cons, List.nodup_cons]
      rw [← hk]
      exact h
    · simp only [hmInsert, hk, if_false]
      have h2 := ih h.2
      simp only [keysNodup, List.map_cons, List.nodup_cons]
      refine ⟨?_, h2⟩
      intro hmem
      have hkeys : ∀ x, x ∈ (hmInsert k v rest).1.map Prod.fst →
          x ∈ rest.map Prod.fst ∨ x = k := by
        intro x hx
        clear hmem ih h2 h
        induction rest with
        | nil => simp [hmInsert] at hx; exact Or.inr hx
        | cons q r2 ih2 =>
          by_cases hq : q.1 = k
          · simp only [hmInsert, hq, if_true, if_pos, List.map_cons,
              List.mem_cons] at hx
            rcases hx with hx | hx
            · exact Or.inr hx
            · exact Or.inl (by simp [hx])
          · simp only [hmInsert, hq, if_false, List.map_cons,
              List.mem_cons] at hx
            rcases hx with hx | hx
            · exact Or.inl (by simp [hx])
            · rcases ih2 hx with h3 | h3
              · exact Or.inl (by simp [h3])
              · exact Or.inr h3
      rcases hkeys p.1 hmem with h3 | h3
      · exact h.1 h3
      · exact hk h3

theorem mem_hmInsert (k : String) (v : Entry) (l : List (String × Entry))
    (h : keysNodup l) (p : String × Entry) :
    p ∈ (hmInsert k v l).1 ↔ p = (k, v) ∨ (p ∈ l ∧ p.1 ≠ k) := by
  induction l with
  | nil => simp [hmInsert]
  | cons q rest ih =>
    simp only [keysNodup, List.map_cons, List.nodup_cons] at h
    by_cases hq : q.1 = k
    · simp only [hmInsert, hq, if_true, if_pos, List.mem_cons]
      constructor
      · rintro (hp | hp)
        · exact Or.inl hp
        · refine Or.inr ⟨Or.inr hp, ?_⟩
          intro hpk
          have hmemk : p.1 ∈ rest.map Prod.fst := List.mem_map_of_mem _ hp
          rw [hpk, ← hq] at hmemk
          exact h.1 hmemk
      · rintro (hp | ⟨hp | hp2, hpk⟩)
        · exact Or.inl hp
        · exact absurd (by rw [hp]; exact hq) hpk
        · exact Or.inr hp2
    · simp only [hmInsert, hq, if_false, List.mem_cons]
      rw [ih (by simpa [keysNodup] using h.2)]
      constructor
      · rintro (hp | hp | ⟨hp, hpk⟩)
        · refine Or.inr ⟨Or.inl hp, ?_⟩
          rw [hp]
          exact hq
        · exact Or.inl hp
        · exact Or.inr ⟨Or.inr hp, hpk⟩
      · rintro (hp | ⟨hp | hp, hpk⟩)
        · exact Or.inr (Or.inl hp)
        · exact Or.inl hp
        · exact Or.inr (Or.inr ⟨hp, hpk⟩)

theorem hmRemove_sublist (k : String) (l : List (String × Entry)) :
    (hmRemove k l).Sublist l := by
  induction l with
  | nil => simp [hmRemove]
  | cons p rest ih =>
    by_cases hk : p.1 = k
    · simp only [hmRemove, hk, if_true, if_pos]
      exact List.sublist_cons_self p rest
    · simp only [hmRemove, hk, if_false]
      exact List.Sublist.cons₂ p ih

theorem mem_hmRemove_of (k : String) (l : List (String × Entry))
    (p : String × Entry) (hp : p ∈ l) (hpk : p.1 ≠ k) :
    p ∈ hmRemove k l := by
  induction l with
  | nil => simp at hp
  | cons q rest ih =>
    rcases List.mem_cons.mp hp with hp2 | hp2
    · subst hp2
      simp [hmRemove, hpk]
    · by_cases hq : q.1 = k
      · simpa [hmRemove, hq] using hp2
      · simp only [hmRemove, hq, if_false, List.mem_cons]
        exact Or.inr (ih hp2)

theorem hmGet_remove_self (k : String) (l : List (String × Entry))
    (h : keysNodup l) : hmGet k (hmRemove k l) = none := by
  induction l with
  | nil => rfl
  | cons p rest ih =>
    obtain ⟨q1, q2⟩ := p
    simp only [keysNodup, List.map_cons, List.nodup_cons] at h
    by_cases hk : q1 = k
    · simp only [hmRemove, hk, if_true, if_pos]
      rw [hmGet_none_keys, ← hk]
      exact h.1
    · simp only [hmRemove, hk, if_false, hmGet]
      exact ih (by simpa [keysNodup] using h.2)

theorem hmGet_remove_other (k k2 : String) (l : List (String × Entry))
    (h : k2 ≠ k) : hmGet k2 (hmRemove k l) = hmGet k2 l := by
  induction l with
  | nil => rfl
  | cons p rest ih =>
    obtain ⟨q1, q2⟩ := p
    by_cases hk : q1 = k
    · simp only [hmRemove, hk, if_true, if_pos, hmGet]
      rw [if_neg (fun hc => h hc.symm)]
    · simp only [hmRemove, hk, if_false, hmGet]
      by_cases hk2 : q1 = k2 <;> simp [hk2, ih]

theorem hmGet_mem (k : String) (v : Entry) (l : List (String × Entry))
    (h : hmGet k l = some v) : (k, v) ∈ l := by
  induction l with
  | nil => simp [hmGet] at h
  | cons p rest ih =>
    obtain ⟨p1, p2⟩ := p
    by_cases hk : p1 = k
    · have h2 : p2 = v := by
        simp only [hmGet, hk, if_true, if_pos, Option.some_inj] at h
        exact h
      rw [← hk, ← h2]
      exact List.mem_cons_self _ _
    · simp only [hmGet, hk, if_false] at h
      exact List.mem_cons_of_mem _ (ih h)

theorem mem_hmGet (k : String) (v : Entry) (l : List (String × Entry))
    (hnod : keysNodup l) (h : (k, v) ∈ l) : hmGet k l = some v := by
  induction l with
  | nil => simp at h
  | cons p rest ih =>
    simp only [keysNodup, List.map_cons, List.nodup_cons] at hnod
    rcases List.mem_cons.mp h with h2 | h2
    · rw [← h2]
      simp [hmGet]
    · have hk : p.1 ≠ k := by
        intro hc
        have : k ∈ rest.map Prod.fst := by
          simpa using List.mem_map_of_mem Prod.fst h2
        rw [← hc] at this
        exact hnod.1 this
      simp only [hmGet, hk, if_false]
      exact ih (by simpa [keysNodup] using hnod.2) h2

theorem keyLt_trans {a b c : Nat × Nat} (h1 : keyLt a b = true)
    (h2 : keyLt b c = true) : keyLt a c = true := by
  simp only [keyLt, Bool.or_eq_true, Bool.and_eq_true, decide_eq_true_eq] at h1 h2 ⊢
  omega

theorem keyLt_total {a b : Nat × Nat} (h : a ≠ b) :
    keyLt a b = true ∨ keyLt b a = true := by
  simp only [keyLt, Bool.or_eq_true, Bool.and_eq_true, decide_eq_true_eq]
  obtain ⟨a1, a2⟩ := a
  obtain ⟨b1, b2⟩ := b
  have : a1 ≠ b1 ∨ a2 ≠ b2 := by
    by_contra hc
    push_neg at hc
    exact h (by rw [hc.1, hc.2])
  omega

theorem keyLt_ne {a b : Nat × Nat} (h : keyLt a b = true) : a ≠ b := by
  simp only [keyLt, Bool.or_eq_true, Bool.and_eq_true, decide_eq_true_eq] at h
  intro hc
  rw [hc] at h
  omega

theorem mem_btInsert_elim (key : Nat × Nat) (v : String)
    (l : List ((Nat × Nat) × String)) (x : (Nat × Nat) × String)
    (h : x ∈ btInsert key v l) : x = (key, v) ∨ x ∈ l := by
  induction l with
  | nil => simpa [btInsert] using h
  | cons q rest ih =>
    simp only [btInsert] at h
    by_cases h1 : keyLt key q.1 = true
    · rw [if_pos h1] at h
      rcases List.mem_cons.mp h with h2 | h2
      · exact Or.inl h2
      · exact Or.inr h2
    · rw [if_neg (by simpa using h1)] at h
      by_cases h2 : key = q.1
      · rw [if_pos h2] at h
        rcases List.mem_cons.mp h with h3 | h3
        · exact Or.inl h3
        · exact Or.inr (List.mem_cons_of_mem _ h3)
      · rw [if_neg h2] at h
        rcases List.mem_cons.mp h with h3 | h3
        · exact Or.inr (List.mem_cons.mpr (Or.inl h3))
        · rcases ih h3 with h4 | h4
          · exact Or.inl h4
          · exact Or.inr (List.mem_cons_of_mem _ h4)

theorem mem_btInsert_self (key : Nat × Nat) (v : String)
    (l : List ((Nat × Nat) × String)) : (key, v) ∈ btInsert key v l := by
  induction l with
  | nil => simp [btInsert]
  | cons q rest ih =>
    simp only [btInsert]
    by_cases h1 : keyLt key q.1 = true
    · rw [if_pos h1]
      exact List.mem_cons_self _ _
    · rw [if_neg (by simpa using h1)]
      by_cases h2 : key = q.1
      · rw [if_pos h2]
        exact List.mem_cons_self _ _
      · rw [if_neg h2]
        exact List.mem_cons_of_mem _ ih

theorem mem_btInsert_keep (key : Nat × Nat) (v : String)
    (l : List ((Nat × Nat) × String)) (x : (Nat × Nat) × String)
    (hx : x ∈ l) (hne : x.1 ≠ key) : x ∈ btInsert key v l := by
  induction l with
  | nil => simp at hx
  | cons q rest ih =>
    simp only [btInsert]
    by_cases h1 : keyLt key q.1 = true
    · rw [if_pos h1]
      exact List.mem_cons_of_mem _ hx
    · rw [if_neg (by simpa using h1)]
      by_cases h2 : key = q.1
      · rw [if_pos h2]
        rcases List.mem_cons.mp hx with h3 | h3
        · exact absurd (by rw [h3, ← h2]) hne
        · exact List.mem_cons_of_mem _ h3
      · rw [if_neg h2]
        rcases List.mem_cons.mp hx with h3 | h3
        · exact List.mem_cons.mpr (Or.inl h3)
        · exact List.mem_cons_of_mem _ (ih h3)

theorem btInsert_pairwise (key : Nat × Nat) (v : String)
    (l : List ((Nat × Nat) × String))
    (h : l.Pairwise fun a b => keyLt a.1 b.1 = true) :
    (btInsert key v l).Pairwise fun a b => keyLt a.1 b.1 = true := by
  induction l with
  | nil => simp [btInsert]
  | cons q rest ih =>
    rcases List.pairwise_cons.mp h with ⟨hq, hrest⟩
    simp only [btInsert]
    by_cases h1 : keyLt key q.1 = true
    · rw [if_pos h1]
      refine List.pairwise_cons.mpr ⟨?_, h⟩
      intro x hx
      rcases List.mem_cons.mp hx with h2 | h2
      · rw [h2]
        exact h1
      · exact keyLt_trans h1 (hq x h2)
    · rw [if_neg (by simpa using h1)]
      by_cases h2 : key = q.1
      · rw [if_pos h2]
        refine List.pairwise_cons.mpr ⟨?_, hrest⟩
        intro x hx
        rw [h2]
        exact hq x hx
      · rw [if_neg h2]
        have h3 : keyLt q.1 key = true := by
          rcases keyLt_total h2 with h4 | h4
          · exact absurd h4 h1
          · exact h4
        refine List.pairwise_cons.mpr ⟨?_, ih hrest⟩
        intro x hx
        rcases mem_btInsert_elim key v rest x hx with h4 | h4
        · rw [h4]
          exact h3
        · exact hq x h4

theorem btRemove_sublist (key : Nat × Nat)
    (l : List ((Nat × Nat) × String)) : (btRemove key l).Sublist l := by
  induction l with
  | nil => simp [btRemove]
  | cons q rest ih =>
    by_cases hk : q.1 = key
    · simp only [btRemove, hk, if_true, if_pos]
      exact List.sublist_cons_self q rest
    · simp only [btRemove, hk, if_false]
      exact List.Sublist.cons₂ q ih

theorem mem_btRemove_keep (key : Nat × Nat)
    (l : List ((Nat × Nat) × String)) (x : (Nat × Nat) × String)
    (hx : x ∈ l) (hne : x.1 ≠ key) : x ∈ btRemove key l := by
  induction l with
  | nil => simp at hx
  | cons q rest ih =>
    by_cases hk : q.1 = key
    · simp only [btRemove, hk, if_true, if_pos]
      rcases List.mem_cons.mp hx with h2 | h2
      · exact absurd (by rw [h2]; exact hk) hne
      · exact h2
    · simp only [btRemove, hk, if_false]
      rcases List.mem_cons.mp hx with h2 | h2
      · exact List.mem_cons.mpr (Or.inl h2)
      · exact List.mem_cons_of_mem _ (ih h2)

theorem btRemove_not_mem (key : Nat × Nat)
    (l : List ((Nat × Nat) × String))
    (h : l.Pairwise fun a b => keyLt a.1 b.1 = true) :
    ∀ x ∈ btRemove key l, x.1 ≠ key := by
  induction l with
  | nil => simp [btRemove]
  | cons q rest ih =>
    rcases List.pairwise_cons.mp h with ⟨hq, hrest⟩
    intro x hx
    by_cases hk : q.1 = key
    · simp only [btRemove, hk, if_true, if_pos] at hx
      intro hc
      have := hq x hx
      rw [hc, ← hk] at this
      exact absurd rfl (keyLt_ne this)
    · simp only [btRemove, hk, if_false] at hx
      rcases List.mem_cons.mp hx with h2 | h2
      · rw [h2]
        exact hk
      · exact ih hrest x h2

theorem mem_hmRemove_ne (k : String) (l : List (String × Entry))
    (hnod : keysNodup l) (p : String × Entry) (hp : p ∈ hmRemove k l) :
    p.1 ≠ k := by
  intro hc
  have hnone := hmGet_remove_self k l hnod
  rw [hmGet_none_keys] at hnone
  apply hnone
  have hm : p.1 ∈ (hmRemove k l).map Prod.fst := List.mem_map_of_mem Prod.fst hp
  rwa [hc] at hm

theorem reapLoop_inv (now nid : Nat) :
    ∀ rows data, keysNodup data → idsUniq data → idsBound data nid →
      rowsBound rows nid →
      (rows.Pairwise fun a b => keyLt a.1 b.1 = true) →
      rowsComplete data rows →
      keysNodup (reapLoop now data rows).1 ∧
      idsUniq (reapLoop now data rows).1 ∧
      idsBound (reapLoop now data rows).1 nid ∧
      rowsBound (reapLoop now data rows).2.1 nid ∧
      ((reapLoop now data rows).2.1.Pairwise fun a b => keyLt a.1 b.1 = true) ∧
      rowsComplete (reapLoop now data rows).1 (reapLoop now data rows).2.1 := by
  intro rows
  induction rows with
  | nil =>
    intro data h1 h2 h3 h4 h5 h6
    simp only [reapLoop]
    exact ⟨h1, h2, h3, h4, h5, h6⟩
  | cons row rest ih =>
    intro data h1 h2 h3 h4 h5 h6
    obtain ⟨⟨exp, i⟩, key⟩ := row
    rcases List.pairwise_cons.mp h5 with ⟨hhead, hrest⟩
    have h4r : rowsBound rest nid := fun r hr => h4 r (List.mem_cons_of_mem _ hr)
    by_cases hfut : now < exp
    · simp only [reapLoop, hfut, if_true, if_pos]
      exact ⟨h1, h2, h3, h4, h5, h6⟩
    · simp only [reapLoop, hfut, if_false]
      have hdel : ∀ data2, keysNodup data2 → idsUniq data2 → idsBound data2 nid →
          rowsComplete data2 rest →
          keysNodup (reapLoop now data2 rest).1 ∧
          idsUniq (reapLoop now data2 rest).1 ∧
          idsBound (reapLoop now data2 rest).1 nid ∧
          rowsBound (reapLoop now data2 rest).2.1 nid ∧
          ((reapLoop now data2 rest).2.1.Pairwise fun a b => keyLt a.1 b.1 = true) ∧
          rowsComplete (reapLoop now data2 rest).1 (reapLoop now data2 rest).2.1 :=
        fun data2 g1 g2 g3 g6 => ih data2 g1 g2 g3 h4r hrest g6
      have hcomp_ne : ∀ p ∈ data, p.1 ≠ key → rowOk rest p := by
        rintro ⟨p1, pe⟩ hp hpk
        have hro := h6 ⟨p1, pe⟩ hp
        simp only at hpk
        cases pe with
        | str se =>
          cases hse : se.expiresAt with
          | some t =>
            simp only [rowOk, hse] at hro ⊢
            rcases List.mem_cons.mp hro with hh | hh
            · exact absurd (congrArg Prod.snd hh) hpk
            · exact hh
          | none => simp only [rowOk, hse]
        | stream s => simp only [rowOk]
      cases hget : hmGet key data with
      | none =>
        simp only [hget]
        refine hdel data h1 h2 h3 ?_
        intro p hp
        refine hcomp_ne p hp ?_
        intro hc
        rw [hmGet_none_keys] at hget
        exact hget (by rw [← hc]; exact List.mem_map_of_mem Prod.fst hp)
      | some e =>
        cases e with
        | stream s =>
          simp only [hget]
          refine hdel data h1 h2 h3 ?_
          rintro ⟨p1, pe⟩ hp
          by_cases hpk : p1 = key
          · have hpe : hmGet p1 data = some pe := mem_hmGet p1 pe data h1 hp
            rw [hpk, hget] at hpe
            cases pe with
            | str se => simp at hpe
            | stream s2 => simp only [rowOk]
          · exact hcomp_ne ⟨p1, pe⟩ hp hpk
        | str se =>
          simp only [hget]
          by_cases hid : se.id = i
          · rw [if_pos hid]
            have g1 : keysNodup (hmRemove key data) := by
              simp only [keysNodup]
              exact List.Nodup.sublist
                ((hmRemove_sublist key data).map Prod.fst) h1
            refine hdel (hmRemove key data) g1 ?_ ?_ ?_
            · intro p hp q hq hne
              exact h2 p ((hmRemove_sublist key data).subset hp) q
                ((hmRemove_sublist key data).subset hq) hne
            · intro p hp
              exact h3 p ((hmRemove_sublist key data).subset hp)
            · intro p hp
              exact hcomp_ne p ((hmRemove_sublist key data).subset hp)
                (mem_hmRemove_ne key data h1 p hp)
          · rw [if_neg hid]
            refine hdel data h1 h2 h3 ?_
            rintro ⟨p1, pe⟩ hp
            by_cases hpk : p1 = key
            · have hpe : hmGet p1 data = some pe := mem_hmGet p1 pe data h1 hp
              rw [hpk, hget] at hpe
              cases pe with
              | stream s2 => simp only [rowOk]
              | str se2 =>
                have hse2 : se2 = se := by
                  simp only [Option.some_inj, Entry.str.injEq] at hpe
                  exact hpe.symm
                cases hse : se2.expiresAt with
                | none => simp only [rowOk, hse]
                | some t =>
                  simp only [rowOk, hse]
                  have hro := h6 ⟨p1, .str se2⟩ hp
                  simp only [rowOk, hse] at hro
                  rcases List.mem_cons.mp hro with hh | hh
                  · exfalso
                    injection hh with hh1 hh2
                    injection hh1 with hh3 hh4
                    exact hid (by rw [← hse2, hh4])
                  · exact hh
            · exact hcomp_ne ⟨p1, pe⟩ hp hpk

theorem entryIdLt_mono (nid : Nat) (e : Entry) (h : entryIdLt nid e) :
    entryIdLt (nid + 1) e := by
  cases e with
  | str se =>
    simp only [entryIdLt] at h ⊢
    omega
  | stream s => simp only [entryIdLt]

theorem reapLoop_get (now : Nat) (k : String) :
    ∀ rows data, keysNodup data →
      hmGet k (reapLoop now data rows).1 = hmGet k data ∨
      (hmGet k (reapLoop now data rows).1 = none ∧
        ∃ exp i se, ((exp, i), k) ∈ rows ∧ exp ≤ now ∧
          hmGet k data = some (Entry.str se) ∧ se.id = i) := by
  intro rows
  induction rows with
  | nil =>
    intro data h1
    exact Or.inl rfl
  | cons row rest ih =>
    intro data h1
    obtain ⟨⟨exp, i⟩, key⟩ := row
    by_cases hfut : now < exp
    · exact Or.inl (by simp [reapLoop, hfut])
    · simp only [reapLoop, hfut, if_false]
      have hexp : exp ≤ now := Nat.le_of_not_lt hfut
      cases hget : hmGet key data with
      | none =>
        simp only [hget]
        rcases ih data h1 with h | ⟨hn, exp2, i2, se2, hmem, hle, hgd, hid2⟩
        · exact Or.inl h
        · exact Or.inr ⟨hn, exp2, i2, se2, List.mem_cons_of_mem _ hmem,
            hle, hgd, hid2⟩
      | some e =>
        cases e with
        | stream s =>
          simp only [hget]
          rcases ih data h1 with h | ⟨hn, exp2, i2, se2, hmem, hle, hgd, hid2⟩
          · exact Or.inl h
          · exact Or.inr ⟨hn, exp2, i2, se2, List.mem_cons_of_mem _ hmem,
              hle, hgd, hid2⟩
        | str se =>
          simp only [hget]
          by_cases hid : se.id = i
          · rw [if_pos hid]
            have g1 : keysNodup (hmRemove key data) := by
              simp only [keysNodup]
              exact List.Nodup.sublist
                ((hmRemove_sublist key data).map Prod.fst) h1
            by_cases hkk : k = key
            · subst hkk
              rcases ih (hmRemove k data) g1 with h |
                  ⟨hn, exp2, i2, se2, hmem, hle, hgd, hid2⟩
              · refine Or.inr ⟨?_, exp, i, se, List.mem_cons_self _ _,
                  hexp, hget, hid⟩
                rw [h]
                exact hmGet_remove_self k data h1
              · exact Or.inr ⟨hn, exp, i, se, List.mem_cons_self _ _,
                  hexp, hget, hid⟩
            · rcases ih (hmRemove key data) g1 with h |
                  ⟨hn, exp2, i2, se2, hmem, hle, hgd, hid2⟩
              · refine Or.inl ?_
                rw [h]
                exact hmGet_remove_other key k data hkk
              · refine Or.inr ⟨hn, exp2, i2, se2,
                  List.mem_cons_of_mem _ hmem, hle, ?_, hid2⟩
                rw [← hmGet_remove_other key k data hkk]
                exact hgd
          · rw [if_neg hid]
            rcases ih data h1 with h | ⟨hn, exp2, i2, se2, hmem, hle, hgd, hid2⟩
            · exact Or.inl h
            · exact Or.inr ⟨hn, exp2, i2, se2, List.mem_cons_of_mem _ hmem,
                hle, hgd, hid2⟩

theorem countP_key_le_one (key : Nat × Nat) :
    ∀ rows : List ((Nat × Nat) × String),
      (rows.Pairwise fun a b => keyLt a.1 b.1 = true) →
      rows.countP (fun r => decide (r.1 = key)) ≤ 1 := by
  intro rows
  induction rows with
  | nil => intro _; simp
  | cons q rest ih =>
    intro h
    rcases List.pairwise_cons.mp h with ⟨hq, hrest⟩
    by_cases hk : q.1 = key
    · have hzero : rest.countP (fun r => decide (r.1 = key)) = 0 := by
        rw [List.countP_eq_zero]
        intro r hr
        simp only [decide_eq_true_eq]
        intro hc
        exact keyLt_ne (hq r hr) (by rw [hk, hc])
      simp [List.countP_cons, hk, hzero]
    · have hone := ih hrest
      simp only [List.countP_cons, hk]
      simp only [decide_eq_true_eq, hk, if_false]
      omega

theorem expRows_count_one (data : List (String × Entry))
    (rows : List ((Nat × Nat) × String))
    (h5 : rows.Pairwise fun a b => keyLt a.1 b.1 = true)
    (h6 : rowsComplete data rows)
    (k : String) (se : StringEntry) (t : Nat)
    (hget : hmGet k data = some (Entry.str se))
    (ht : se.expiresAt = some t) :
    rows.countP (fun r => decide (r.1 = (t, se.id))) = 1 := by
  have hmem : ((t, se.id), k) ∈ rows := by
    have hro := h6 (k, Entry.str se) (hmGet_mem k _ data hget)
    simp only [rowOk, ht] at hro
    exact hro
  have hpos : 0 < rows.countP (fun r => decide (r.1 = (t, se.id))) := by
    rw [List.countP_pos_iff]
    exact ⟨((t, se.id), k), hmem, by simp⟩
  have hle := countP_key_le_one (t, se.id) rows h5
  omega

theorem storeInv_set_general
    (data : List (String × Entry)) (rows2 : List ((Nat × Nat) × String))
    (nid : Nat) (key : String) (e : StringEntry) (b : Bool)
    (hid : e.id = nid)
    (h1 : keysNodup data) (h2 : idsUniq data) (h3 : idsBound data nid)
    (hb : rowsBound rows2 (nid + 1))
    (hs : expSortedP rows2)
    (hnew : ∀ t, e.expiresAt = some t → ((t, e.id), key) ∈ rows2)
    (hold : ∀ p ∈ data, p.1 ≠ key → rowOk rows2 p) :
    storeInv ⟨(hmInsert key (Entry.str e) data).1, rows2, nid + 1, b⟩ := by
  refine ⟨keysNodup_hmInsert key _ data h1, ?_, ?_, hb, hs, ?_⟩
  · intro p hp q hq hne
    rcases (mem_hmInsert key (Entry.str e) data h1 p).mp hp with hp2 | ⟨hp2, hpk⟩
    · rcases (mem_hmInsert key (Entry.str e) data h1 q).mp hq with hq2 | ⟨hq2, hqk⟩
      · exact absurd (by rw [hp2, hq2]) hne
      · rw [hp2]
        obtain ⟨q1, qe⟩ := q
        cases qe with
        | stream s => simp [idsDistinct]
        | str qe2 =>
          have h3q := h3 ⟨q1, Entry.str qe2⟩ hq2
          simp only [entryIdLt] at h3q
          simp only [idsDistinct]
          omega
    · rcases (mem_hmInsert key (Entry.str e) data h1 q).mp hq with hq2 | ⟨hq2, hqk⟩
      · rw [hq2]
        obtain ⟨p1, pe⟩ := p
        cases pe with
        | stream s => simp [idsDistinct]
        | str pe2 =>
          have h3p := h3 ⟨p1, Entry.str pe2⟩ hp2
          simp only [entryIdLt] at h3p
          simp only [idsDistinct]
          omega
      · exact h2 p hp2 q hq2 hne
  · intro p hp
    rcases (mem_hmInsert key (Entry.str e) data h1 p).mp hp with hp2 | ⟨hp2, hpk⟩
    · rw [hp2]
      simp only [entryIdLt]
      omega
    · exact entryIdLt_mono nid p.2 (h3 p hp2)
  · intro p hp
    rcases (mem_hmInsert key (Entry.str e) data h1 p).mp hp with hp2 | ⟨hp2, hpk⟩
    · rw [hp2]
      cases ht : e.expiresAt with
      | none => simp only [rowOk, ht]
      | some t =>
        simp only [rowOk, ht]
        exact hnew t ht
    · exact hold p hp2 hpk

theorem dbSet_inv (st : Store) (key : String) (value : Bytes)
    (expire : Option Nat) (now : Nat) (hinv : storeInv st) :
    storeInv (dbSet st key value expire now).1 := by
  obtain ⟨h1, h2, h3, h4, h5, h6⟩ := hinv
  have hb0 : rowsBound st.expires (st.nextId + 1) := by
    intro r hr
    have := h4 r hr
    omega
  have hboundA : ∀ w, rowsBound (btInsert (w, st.nextId) key st.expires)
      (st.nextId + 1) := by
    intro w r hr
    rcases mem_btInsert_elim (w, st.nextId) key st.expires r hr with h | h
    · rw [h]
      simp
    · have := h4 r h
      omega
  have hsortA : ∀ w, expSortedP (btInsert (w, st.nextId) key st.expires) :=
    fun w => btInsert_pairwise (w, st.nextId) key st.expires h5
  have holdA : ∀ w, ∀ p ∈ st.data, p.1 ≠ key →
      rowOk (btInsert (w, st.nextId) key st.expires) p := by
    intro w p hp hpk
    have hro := h6 p hp
    obtain ⟨p1, pe⟩ := p
    cases pe with
    | stream s => simp only [rowOk]
    | str qe =>
      cases ht : qe.expiresAt with
      | none => simp only [rowOk, ht]
      | some t =>
        simp only [rowOk, ht] at hro ⊢
        refine mem_btInsert_keep _ _ _ _ hro ?_
        have h3q := h3 ⟨p1, Entry.str qe⟩ hp
        simp only [entryIdLt] at h3q
        intro hc
        have h9 : qe.id = st.nextId := congrArg Prod.snd hc
        omega
  have hremkeep : ∀ (rows : List ((Nat × Nat) × String)) pe pexp,
      hmGet key st.data = some (Entry.str pe) →
      (∀ p ∈ st.data, p.1 ≠ key → rowOk rows p) →
      ∀ p ∈ st.data, p.1 ≠ key → rowOk (btRemove (pexp, pe.id) rows) p := by
    intro rows pe pexp hget hold p hp hpk
    obtain ⟨p1, pe2⟩ := p
    cases pe2 with
    | stream s => simp only [rowOk]
    | str qe =>
      cases ht : qe.expiresAt with
      | none => simp only [rowOk, ht]
      | some t =>
        have hro := hold ⟨p1, Entry.str qe⟩ hp hpk
        simp only [rowOk, ht] at hro ⊢
        refine mem_btRemove_keep _ _ _ hro ?_
        have hkey_mem : (key, Entry.str pe) ∈ st.data :=
          hmGet_mem key _ st.data hget
        have hdis := h2 ⟨p1, Entry.str qe⟩ hp (key, Entry.str pe) hkey_mem hpk
        simp only [idsDistinct] at hdis
        intro hc
        exact hdis (congrArg Prod.snd hc)
  have hbR : ∀ k2 rows, rowsBound rows (st.nextId + 1) →
      rowsBound (btRemove k2 rows) (st.nextId + 1) :=
    fun k2 rows hb r hr => hb r ((btRemove_sublist k2 rows).subset hr)
  have hsR : ∀ k2 rows, expSortedP rows → expSortedP (btRemove k2 rows) :=
    fun k2 rows hs => List.Pairwise.sublist (btRemove_sublist k2 rows) hs
  have hnewR : ∀ w rows pe pexp, hmGet key st.data = some (Entry.str pe) →
      ((w, st.nextId), key) ∈ rows →
      ((w, st.nextId), key) ∈ btRemove (pexp, pe.id) rows := by
    intro w rows pe pexp hget hmem
    refine mem_btRemove_keep _ _ _ hmem ?_
    have h3p := h3 (key, Entry.str pe) (hmGet_mem key _ st.data hget)
    simp only [entryIdLt] at h3p
    intro hc
    have h9 : st.nextId = pe.id := congrArg Prod.snd hc
    omega
  cases expire with
  | some dur =>
    simp only [dbSet, hmInsert_snd]
    cases hget : hmGet key st.data with
    | none =>
      simp only [hget]
      refine storeInv_set_general st.data _ st.nextId key
        ⟨st.nextId, value, some (now + dur)⟩ st.isDropped rfl h1 h2 h3
        (hboundA _) (hsortA _) ?_ (holdA _)
      intro t ht
      have h9 : now + dur = t := Option.some.inj ht
      subst h9
      exact mem_btInsert_self (now + dur, st.nextId) key st.expires
    | some e =>
      cases e with
      | stream s =>
        simp only [hget]
        refine storeInv_set_general st.data _ st.nextId key
          ⟨st.nextId, value, some (now + dur)⟩ st.isDropped rfl h1 h2 h3
          (hboundA _) (hsortA _) ?_ (holdA _)
        intro t ht
        have h9 : now + dur = t := Option.some.inj ht
        subst h9
        exact mem_btInsert_self (now + dur, st.nextId) key st.expires
      | str pe =>
        simp only [hget]
        cases hpe : pe.expiresAt with
        | none =>
          simp only [hpe]
          refine storeInv_set_general st.data _ st.nextId key
            ⟨st.nextId, value, some (now + dur)⟩ st.isDropped rfl h1 h2 h3
            (hboundA _) (hsortA _) ?_ (holdA _)
          intro t ht
          have h9 : now + dur = t := Option.some.inj ht
          subst h9
          exact mem_btInsert_self (now + dur, st.nextId) key st.expires
        | some pexp =>
          simp only [hpe]
          refine storeInv_set_general st.data _ st.nextId key
            ⟨st.nextId, value, some (now + dur)⟩ st.isDropped rfl h1 h2 h3
            (hbR _ _ (hboundA _)) (hsR _ _ (hsortA _)) ?_
            (hremkeep _ pe pexp hget (holdA _))
          intro t ht
          have h9 : now + dur = t := Option.some.inj ht
          subst h9
          exact hnewR (now + dur) _ pe pexp hget
            (mem_btInsert_self (now + dur, st.nextId) key st.expires)
  | none =>
    simp only [dbSet, hmInsert_snd]
    cases hget : hmGet key st.data with
    | none =>
      simp only [hget]
      exact storeInv_set_general st.data _ st.nextId key
        ⟨st.nextId, value, none⟩ st.isDropped rfl h1 h2 h3
        hb0 h5 (fun t ht => Option.noConfusion ht) (fun p hp hpk => h6 p hp)
    | some e =>
      cases e with
      | stream s =>
        simp only [hget]
        exact storeInv_set_general st.data _ st.nextId key
          ⟨st.nextId, value, none⟩ st.isDropped rfl h1 h2 h3
          hb0 h5 (fun t ht => Option.noConfusion ht) (fun p hp hpk => h6 p hp)
      | str pe =>
        simp only [hget]
        cases hpe : pe.expiresAt with
        | none =>
          simp only [hpe]
          exact storeInv_set_general st.data _ st.nextId key
            ⟨st.nextId, value, none⟩ st.isDropped rfl h1 h2 h3
            hb0 h5 (fun t ht => Option.noConfusion ht) (fun p hp hpk => h6 p hp)
        | some pexp =>
          simp only [hpe]
          exact storeInv_set_general st.data _ st.nextId key
            ⟨st.nextId, value, none⟩ st.isDropped rfl h1 h2 h3
            (hbR _ _ hb0) (hsR _ _ h5) (fun t ht => Option.noConfusion ht)
            (hremkeep _ pe pexp hget (fun p hp hpk => h6 p hp))

theorem dbSet_removes_old (st : Store) (key : String) (value : Bytes)
    (expire : Option Nat) (now : Nat) (hinv : storeInv st)
    (pe : StringEntry) (pexp : Nat)
    (hget : hmGet key st.data = some (Entry.str pe))
    (hpe : pe.expiresAt = some pexp) :
    ∀ r ∈ (dbSet st key value expire now).1.expires, r.1 ≠ (pexp, pe.id) := by
  obtain ⟨h1, h2, h3, h4, h5, h6⟩ := hinv
  cases expire with
  | some dur =>
    simp only [dbSet, hmInsert_snd, hget, hpe]
    exact btRemove_not_mem (pexp, pe.id) _
      (btInsert_pairwise (now + dur, st.nextId) key st.expires h5)
  | none =>
    simp only [dbSet, hmInsert_snd, hget, hpe]
    exact btRemove_not_mem (pexp, pe.id) _ h5

theorem removeExpired_inv (st : Store) (now : Nat) (hinv : storeInv st) :
    storeInv (removeExpired st now).1 := by
  obtain ⟨h1, h2, h3, h4, h5, h6⟩ := hinv
  by_cases hd : st.isDropped
  · simp only [removeExpired, hd, if_true, if_pos]
    exact ⟨h1, h2, h3, h4, h5, h6⟩
  · simp only [removeExpired, hd, if_false]
    exact reapLoop_inv now st.nextId st.expires st.data h1 h2 h3 h4 h5 h6

theorem removeExpired_get (st : Store) (now : Nat)
    (h1 : keysNodup st.data) (k : String) :
    hmGet k (removeExpired st now).1.data = hmGet k st.data ∨
    (hmGet k (removeExpired st now).1.data = none ∧
      ∃ exp i se, ((exp, i), k) ∈ st.expires ∧ exp ≤ now ∧
        hmGet k st.data = some (Entry.str se) ∧ se.id = i) := by
  by_cases hd : st.isDropped
  · exact Or.inl (by simp [removeExpired, hd])
  · simp only [removeExpired, hd, if_false]
    exact reapLoop_get now k st.expires st.data h1

/-- A concrete store satisfying the invariant: one expiring string
(`"a"`, id 0, deadline 3) with its index row, fresh counter 1. -/
def wStore : Store :=
  ⟨[("a", Entry.str ⟨0, [120], some 3⟩)], [((3, 0), "a")], 1, false⟩

/-- C6: keyspace operations preserve the expiry-index invariant (`Db::set`
and `Shared::remove_expired` in `src/db.rs`). Under the invariant:
(1) a SET preserves it; (2) when the SET overwrites an expiring string the
old entry's `(deadline, id)` row is gone from the resulting index;
(3) every expiring string has exactly one matching index row; (4) a reaper
pass preserves the invariant; and (5) the reaper leaves every key's entry
untouched except for keys it deletes, and it deletes a key only when the
index held an already-expired row for that key whose id equals the id
stored in the entry (a stale row is merely discarded). -/
theorem expiryIndexInvariant (st : Store) (now : Nat)
    (key : String) (value : Bytes) (expire : Option Nat)
    (hinv : storeInv st) :
    storeInv (dbSet st key value expire now).1 ∧
    (∀ pe pexp, hmGet key st.data = some (Entry.str pe) →
      pe.expiresAt = some pexp →
      ∀ r ∈ (dbSet st key value expire now).1.expires, r.1 ≠ (pexp, pe.id)) ∧
    (∀ k se t, hmGet k st.data = some (Entry.str se) →
      se.expiresAt = some t →
      st.expires.countP (fun r => decide (r.1 = (t, se.id))) = 1) ∧
    storeInv (removeExpired st now).1 ∧
    (∀ k, hmGet k (removeExpired st now).1.data = hmGet k st.data ∨
      (hmGet k (removeExpired st now).1.data = none ∧
        ∃ exp i se, ((exp, i), k) ∈ st.expires ∧ exp ≤ now ∧
          hmGet k st.data = some (Entry.str se) ∧ se.id = i)) := by
  obtain ⟨h1, h2, h3, h4, h5, h6⟩ := hinv
  refine ⟨dbSet_inv st key value expire now ⟨h1, h2, h3, h4, h5, h6⟩,
    ?_, ?_, removeExpired_inv st now ⟨h1, h2, h3, h4, h5, h6⟩,
    fun k => removeExpired_get st now h1 k⟩
  · intro pe pexp hget hpe
    exact dbSet_removes_old st key value expire now
      ⟨h1, h2, h3, h4, h5, h6⟩ pe pexp hget hpe
  · intro k se t hget ht
    exact expRows_count_one st.data st.expires h5 h6 k se t hget ht

/-- C6 (witness): the invariant holds of the concrete store and, by the
theorem, survives an overwriting SET and a reaper pass there. -/
theorem expiryIndexInvariantWitness :
    storeInv wStore ∧
    storeInv (dbSet wStore "a" [121] (some 2) 4).1 ∧
    storeInv (removeExpired wStore 4).1 :=
  ⟨by decide,
   (expiryIndexInvariant wStore 4 "a" [121] (some 2) (by decide)).1,
   (expiryIndexInvariant wStore 4 "a" [121] (some 2) (by decide)).2.2.2.1⟩

end Redis
